import Mathlib

/-!
# Verification of the ficusdb persistent MPT engine

Shallow embedding of the core of `ficusdb` (an append-only, versioned
key/value store organized as an Ethereum-style Merkle Patricia Trie) and
proofs about it.

Modelling conventions, used throughout:

* Bytes are `Nat` with an explicit `% 256` wherever the Rust `u8`
  arithmetic can overflow (`as u8` casts, shifts).
* Rust `Vec<u8>` is `List Nat`; `Vec<Vec<u8>>` is `List (List Nat)`.
* Rust panics (slice out of range, `unwrap`, `assert!`, `unreachable!`)
  are modelled by returning `none` from an `Option`-valued function.
* `keccak256` is kept abstract: every definition that hashes takes a
  `keccak : List Nat → List Nat` parameter; theorems that need it assume
  only that its digests are 32 bytes long, which is all the code relies on.
* The node store's clean LRU cache plus its append-only backend are
  modelled as one logical association list `clean : List (Nat × NodeE)`:
  in the source, evicting (or `take_clean`-removing) a cache entry and
  re-reading it from the backend reproduces the same stored record, so a
  cache miss never changes what a read observes.  The raw byte file of the
  node backend is modelled separately (`backendData`) where the claims are
  about byte-level append behaviour.
-/

namespace Ficus

/-! ## Byte-store primitives

`bwrite`/`bread` model the logical semantics of the page-cached file
(`backend/file.rs`): a write patches bytes `[ptr, ptr+len)`, zero-filling
any gap below `ptr`, and advances the logical tail to
`max(tail, ptr+len)`; a read returns the intersection with `[0, tail)`.
-/

/-- Pad a byte list with zeros up to length `n` (no-op if already longer). -/
def padTo (l : List Nat) (n : Nat) : List Nat :=
  l ++ List.replicate (n - l.length) 0

/-- Rust `Vec::resize(n, 0)`: truncate or zero-extend to exactly `n` bytes. -/
def resize (l : List Nat) (n : Nat) : List Nat :=
  (padTo l n).take n

/-- Logical write of `buf` at offset `ptr` into byte store `data`. -/
def bwrite (data : List Nat) (ptr : Nat) (buf : List Nat) : List Nat :=
  (padTo data ptr).take ptr ++ buf ++ data.drop (ptr + buf.length)

/-- Logical read of `len` bytes at `ptr`, clamped to the store's tail. -/
def bread (data : List Nat) (ptr len : Nat) : List Nat :=
  (data.take (ptr + len)).drop ptr

/-- Association-list lookup keyed by `Nat` (models map/LRU lookup). -/
def alookup {α : Type} : List (Nat × α) → Nat → Option α
  | [], _ => none
  | (k, v) :: t, c => if k = c then some v else alookup t c

theorem bwrite_at_tail (data buf : List Nat) :
    bwrite data data.length buf = data ++ buf := by
  simp [bwrite, padTo]

theorem alookup_mem {α : Type} :
    ∀ (l : List (Nat × α)) (c : Nat) (v : α), alookup l c = some v → (c, v) ∈ l := by
  intro l
  induction l with
  | nil => intro c v h; simp [alookup] at h
  | cons hd t ih =>
    intro c v h
    obtain ⟨k, w⟩ := hd
    by_cases hk : k = c
    · subst hk
      simp [alookup] at h
      simp [h]
    · simp [alookup, hk] at h
      exact List.mem_cons_of_mem _ (ih c v h)

/-! ## Nibble and hex-prefix ("compact") codec — `merkle/utils.rs` -/

/-- `utils::to_nibbles`: split each byte into high and low nibble
(`(b >> 4) & 0xf` and `b & 0xf`). -/
def toNibbles (bytes : List Nat) : List Nat :=
  bytes.flatMap (fun b => [b / 16 % 16, b % 16])

/-- One step of `utils::from_nibbles`: `(p0 << 4) | p1` on `u8`. -/
def packNibs (a b : Nat) : Nat :=
  Nat.lor (a * 16 % 256) (b % 256)

/-- `utils::from_nibbles`: pack nibble pairs into bytes
(`chunks_exact(2)` drops a trailing odd element; the source asserts the
length is even). -/
def fromNibbles : List Nat → List Nat
  | a :: b :: rest => packNibs a b :: fromNibbles rest
  | _ => []

/-- `utils::to_path`: nibble expansion of a key plus terminator nibble 16. -/
def toPath (key : List Nat) : List Nat :=
  toNibbles key ++ [16]

/-- The `terminator` flag of `utils::to_compact`: 1 exactly when the path
is non-empty and ends in the terminator nibble 16. -/
def terminatorOf (path : List Nat) : Nat :=
  if path.getLast? = some 16 then 1 else 0

/-- `utils::to_compact`: hex-prefix encoding of a nibble path.  `res` is
the flag nibble(s) followed by the path without its terminator, packed
into bytes by `from_nibbles`. -/
def toCompact (path : List Nat) : List Nat :=
  fromNibbles
    ((if (path.length - terminatorOf path) % 2 = 1 then
        [2 * terminatorOf path + 1]
      else
        [2 * terminatorOf path, 0]) ++ path.take (path.length - terminatorOf path))

/-- `utils::from_compact`: decode a hex-prefix encoding back to nibbles.
(The source indexes `nibbles[0]`, which panics on empty input; the empty
case is unreachable from `to_compact` output and modelled as `[]`.) -/
def fromCompact (compact : List Nat) : List Nat :=
  if toNibbles compact = [] then []
  else
    (if 2 ≤ (toNibbles compact).headD 0 then
       toNibbles compact ++ [16]
     else
       toNibbles compact).drop (2 - (toNibbles compact).headD 0 % 2)

/-- `Short::common_prefix_len`: length of the common prefix of the short's
path and the remaining key nibbles. -/
def commonPrefixLen : List Nat → List Nat → Nat
  | a :: as_, b :: bs => if b = a then commonPrefixLen as_ bs + 1 else 0
  | _, _ => 0

theorem packNibs_unpack :
    ∀ a, a < 16 → ∀ b, b < 16 →
      packNibs a b / 16 % 16 = a ∧ packNibs a b % 16 = b := by
  decide

theorem toNibbles_fromNibbles :
    ∀ ns : List Nat, (∀ x ∈ ns, x < 16) → ns.length % 2 = 0 →
      toNibbles (fromNibbles ns) = ns
  | [] => by intro _ _; rfl
  | [a] => by intro _ hlen; simp at hlen
  | a :: b :: t => by
    intro hx hlen
    have ha : a < 16 := hx a (by simp)
    have hb : b < 16 := hx b (by simp)
    have hpack := packNibs_unpack a ha b hb
    have ihr := toNibbles_fromNibbles t
      (fun x hxt => hx x (by simp [hxt]))
      (by
        simp only [List.length_cons] at hlen
        omega)
    simp only [fromNibbles, toNibbles, List.flatMap_cons] at ihr ⊢
    simp [hpack.1, hpack.2, ihr]

theorem toCompact_concat_16 (dl : List Nat) :
    toCompact (dl ++ [16]) =
      fromNibbles ((if dl.length % 2 = 1 then [3] else [2, 0]) ++ dl) := by
  have h1 : terminatorOf (dl ++ [16]) = 1 := by simp [terminatorOf]
  have hlen : (dl ++ [16]).length - 1 = dl.length := by simp
  have htake : (dl ++ [16]).take dl.length = dl := by
    simpa using List.take_left dl [16]
  simp only [toCompact, h1, hlen, htake]

theorem toCompact_no_term (dl : List Nat) (a : Nat) (h16 : a ≠ 16) :
    toCompact (dl ++ [a]) =
      fromNibbles
        ((if (dl.length + 1) % 2 = 1 then [1] else [0, 0]) ++ (dl ++ [a])) := by
  have h1 : terminatorOf (dl ++ [a]) = 0 := by simp [terminatorOf, h16]
  have hlen : (dl ++ [a]).length - 0 = dl.length + 1 := by simp
  have htake : (dl ++ [a]).take (dl.length + 1) = dl ++ [a] := by
    have h := List.take_length (dl ++ [a])
    rwa [List.length_append, List.length_singleton] at h
  simp only [toCompact, h1, hlen, htake]

/-- C10: the hex-prefix (compact) path codec round-trips: for every nibble
path whose elements are in `0..=15` except that a single terminator nibble
16 may appear only in the last position,
`from_compact(to_compact(path)) = path`. -/
theorem claim_C10_compact_roundtrip (path : List Nat)
    (hnib : ∀ x ∈ path.dropLast, x < 16)
    (hlast : ∀ x, path.getLast? = some x → x ≤ 16) :
    fromCompact (toCompact path) = path := by
  rcases path.eq_nil_or_concat with rfl | ⟨dl, a, hpath⟩
  · decide
  · rw [List.concat_eq_append] at hpath
    subst hpath
    have ha : a ≤ 16 := hlast a (by simp)
    have hdl : ∀ x ∈ dl, x < 16 := by
      intro x hx
      exact hnib x (by simpa [List.dropLast_concat] using hx)
    by_cases h16 : a = 16
    · subst h16
      by_cases hp : dl.length % 2 = 1
      · have hbase : toNibbles (toCompact (dl ++ [16])) = 3 :: dl := by
          rw [toCompact_concat_16, if_pos hp]
          exact toNibbles_fromNibbles (3 :: dl)
            (by intro x hx
                rcases List.mem_cons.mp hx with h1 | h2
                · omega
                · exact hdl x h2)
            (by simp only [List.length_cons]; omega)
        simp only [fromCompact, hbase]
        simp
      · have hbase : toNibbles (toCompact (dl ++ [16])) = 2 :: 0 :: dl := by
          rw [toCompact_concat_16, if_neg hp]
          exact toNibbles_fromNibbles (2 :: 0 :: dl)
            (by intro x hx
                rcases List.mem_cons.mp hx with h1 | h2
                · omega
                rcases List.mem_cons.mp h2 with h3 | h4
                · omega
                · exact hdl x h4)
            (by simp only [List.length_cons]; omega)
        simp only [fromCompact, hbase]
        simp
    · have hall : ∀ x ∈ dl ++ [a], x < 16 := by
        intro x hx
        rcases List.mem_append.mp hx with h1 | h2
        · exact hdl x h1
        · simp at h2; omega
      by_cases hp : (dl.length + 1) % 2 = 1
      · have hbase : toNibbles (toCompact (dl ++ [a])) = 1 :: (dl ++ [a]) := by
          rw [toCompact_no_term dl a h16, if_pos hp]
          exact toNibbles_fromNibbles (1 :: (dl ++ [a]))
            (by intro x hx
                rcases List.mem_cons.mp hx with h1 | h2
                · omega
                · exact hall x h2)
            (by simp only [List.length_cons, List.length_append,
                  List.length_nil, List.length_singleton]; omega)
        simp only [fromCompact, hbase]
        simp
      · have hbase : toNibbles (toCompact (dl ++ [a])) = 0 :: 0 :: (dl ++ [a]) := by
          rw [toCompact_no_term dl a h16, if_neg hp]
          exact toNibbles_fromNibbles (0 :: 0 :: (dl ++ [a]))
            (by intro x hx
                rcases List.mem_cons.mp hx with h1 | h2
                · omega
                rcases List.mem_cons.mp h2 with h3 | h4
                · omega
                · exact hall x h4)
            (by simp only [List.length_cons, List.length_append,
                  List.length_nil, List.length_singleton]; omega)
        simp only [fromCompact, hbase]
        simp

/-- Witness for C10 at the concrete path `[5, 16]`. -/
theorem claim_C10_witness :
    (∀ x ∈ ([5, 16] : List Nat).dropLast, x < 16) ∧
      fromCompact (toCompact [5, 16]) = [5, 16] :=
  ⟨by decide, claim_C10_compact_roundtrip [5, 16] (by decide) (by decide)⟩

/-! ## RLP encoding — the subset produced by the `rlp` crate calls in
`merkle/node.rs` -/

/-- Minimal big-endian byte representation of `n` (empty for 0), as the
`rlp` crate uses for long-form length prefixes. -/
def beBytes : Nat → List Nat
  | 0 => []
  | n + 1 => beBytes ((n + 1) / 256) ++ [(n + 1) % 256]
decreasing_by exact Nat.div_lt_self (Nat.succ_pos n) (by norm_num)

/-- RLP encoding of a byte string (`rlp::encode` on a byte slice). -/
def rlpBytes (l : List Nat) : List Nat :=
  if l.length = 1 ∧ l.headD 0 < 128 then l
  else if l.length ≤ 55 then (128 + l.length) :: l
  else (183 + (beBytes l.length).length) :: (beBytes l.length ++ l)

/-- RLP list framing: header prepended to the concatenation of
already-encoded items (`RlpStream::new_list` followed by appends). -/
def rlpList (payload : List Nat) : List Nat :=
  if payload.length ≤ 55 then (192 + payload.length) :: payload
  else (247 + (beBytes payload.length).length) :: (beBytes payload.length ++ payload)

/-! ## Trie node model — `merkle/node.rs` -/

/-- `NBRANCH`: a branch has 16 nibble slots plus the terminator slot. -/
def NBRANCH : Nat := 16

/-- `node::Value`: leaf payload; `extra` is opaque metadata that is stored
but never hashed. -/
structure ValueN where
  value : List Nat
  extra : List Nat
deriving DecidableEq, Repr

/-- `node::NodePtr`: on-disk byte offset (clean) or arena index (dirty). -/
inductive NodePtrE where
  | clean (c : Nat)
  | dirty (d : Nat)
deriving DecidableEq, Repr

/-- `node::Child`: structural pointer, or clean pointer plus the child's
cached reference item. -/
inductive ChildE where
  | ptr (p : NodePtrE)
  | hash (c : Nat) (h : List Nat)
deriving DecidableEq, Repr

/-- `node::Branch`; `children` always has length `NBRANCH + 1 = 17` in the
source (a fixed-size array). -/
structure BranchN where
  hash : List Nat
  children : List (Option ChildE)
  aha_len : Nat
  aha_ptr : Nat
deriving DecidableEq, Repr

/-- `node::Short`. -/
structure ShortN where
  hash : List Nat
  path : List Nat
  child : ChildE
deriving DecidableEq, Repr

/-- `node::NodeType` (the payload of `node::Node`). -/
inductive NodeE where
  | branch (b : BranchN)
  | short (s : ShortN)
  | value (v : ValueN)
deriving DecidableEq, Repr

/-- `Branch::new()`: all slots empty, no cached hash, no AHA blob. -/
def branchNew : BranchN :=
  { hash := [], children := List.replicate (NBRANCH + 1) none,
    aha_len := 0, aha_ptr := 0 }

/-- One slot of `Branch::rlp_encode`: `append_empty_data` (0x80) for an
absent child, the raw cached reference item for a loaded child, and an
error (`Child hash is not loaded`) otherwise. -/
def childItem : Option ChildE → Option (List Nat)
  | none => some [128]
  | some (ChildE.hash _ h) => some h
  | some (ChildE.ptr _) => none

/-- `Branch::rlp_encode`: RLP list of the 17 raw reference items. -/
def branchRlp (b : BranchN) : Option (List Nat) := do
  let items ← b.children.mapM childItem
  some (rlpList items.flatten)

/-- `Short::rlp_encode`: RLP list of the hex-prefix path (as a byte
string) and the raw child reference item; error if the child item is not
loaded. -/
def shortRlp (s : ShortN) : Option (List Nat) :=
  match s.child with
  | ChildE.hash _ h => some (rlpList (rlpBytes (toCompact s.path) ++ h))
  | _ => none

/-- `Node::rlp_encode`: canonical trie RLP used for hashing.  A `Value`'s
canonical form is the RLP of its `value` bytes only (`extra` is excluded). -/
def nodeRlp : NodeE → Option (List Nat)
  | NodeE.branch b => branchRlp b
  | NodeE.short s => shortRlp s
  | NodeE.value v => some (rlpBytes v.value)

/-- The wrapping rule shared by `Branch::calc_hash` and `Short::calc_hash`:
the raw RLP when shorter than `HASH_SIZE = 32` bytes, otherwise
`RLP(keccak256(raw))`. -/
def refOfRaw (keccak : List Nat → List Nat) (raw : List Nat) : List Nat :=
  if raw.length < 32 then raw else rlpBytes (keccak raw)

/-- `Node::calc_hash`: compute the node's reference item and cache it on
the node (`Value` nodes always use the raw RLP of their value). -/
def nodeCalcHash (keccak : List Nat → List Nat) :
    NodeE → Option (NodeE × List Nat)
  | NodeE.value v => some (NodeE.value v, rlpBytes v.value)
  | NodeE.branch b => do
      let raw ← branchRlp b
      let h := refOfRaw keccak raw
      some (NodeE.branch { b with hash := h }, h)
  | NodeE.short s => do
      let raw ← shortRlp s
      let h := refOfRaw keccak raw
      some (NodeE.short { s with hash := h }, h)

/-- `Node::hash()`: the stored reference item (for `Value`, its raw RLP). -/
def childRef : NodeE → List Nat
  | NodeE.value v => rlpBytes v.value
  | NodeE.branch b => b.hash
  | NodeE.short s => s.hash

/-- A fixed stand-in digest function used for concrete witnesses: its
output is always 32 bytes, which is the only property proofs rely on. -/
def keccak0 : List Nat → List Nat := fun _ => List.replicate 32 0

theorem rlpBytes_of_len32 (l : List Nat) (h : l.length = 32) :
    rlpBytes l = 160 :: l := by
  simp [rlpBytes, h]

/-- C8 (amended): for every `Branch` or `Short` node, the reference item
computed by `calc_hash` is the raw canonical RLP when it is shorter than 32
bytes, and otherwise `RLP(keccak256(RLP))`, which is exactly 33 bytes and
begins with byte 0xa0 = 160; a `Value` node's reference item is always the
raw RLP of its value. -/
theorem claim_C8_refitem_rule (keccak : List Nat → List Nat)
    (hk : ∀ bs, (keccak bs).length = 32) :
    (∀ b raw, branchRlp b = some raw →
      (nodeCalcHash keccak (NodeE.branch b)).map Prod.snd =
          some (if raw.length < 32 then raw else rlpBytes (keccak raw)) ∧
        (32 ≤ raw.length →
          (refOfRaw keccak raw).length = 33 ∧
            (refOfRaw keccak raw).headD 0 = 160)) ∧
    (∀ s raw, shortRlp s = some raw →
      (nodeCalcHash keccak (NodeE.short s)).map Prod.snd =
          some (if raw.length < 32 then raw else rlpBytes (keccak raw)) ∧
        (32 ≤ raw.length →
          (refOfRaw keccak raw).length = 33 ∧
            (refOfRaw keccak raw).headD 0 = 160)) ∧
    (∀ v, (nodeCalcHash keccak (NodeE.value v)).map Prod.snd =
      some (rlpBytes v.value)) := by
  have hwrap : ∀ raw : List Nat, 32 ≤ raw.length →
      (refOfRaw keccak raw).length = 33 ∧ (refOfRaw keccak raw).headD 0 = 160 := by
    intro raw hlen
    have hno : ¬ raw.length < 32 := by omega
    rw [refOfRaw, if_neg hno, rlpBytes_of_len32 _ (hk raw)]
    simp [hk raw]
  refine ⟨?_, ?_, ?_⟩
  · intro b raw hbr
    exact ⟨by simp [nodeCalcHash, hbr, refOfRaw], hwrap raw⟩
  · intro s raw hsr
    exact ⟨by simp [nodeCalcHash, hsr, refOfRaw], hwrap raw⟩
  · intro v
    simp [nodeCalcHash]

/-- Counterexample to C8 as stated ("for every node ..."): a `Value` node
whose value is 33 bytes has a canonical RLP of 34 bytes (≥ 32), yet its
reference item is that raw RLP itself, not the 33-byte
`RLP(keccak256(RLP))` the claim demands. -/
theorem claim_C8_counterexample :
    32 ≤ (rlpBytes (List.replicate 33 0)).length ∧
      (nodeCalcHash keccak0 (NodeE.value ⟨List.replicate 33 0, []⟩)).map Prod.snd
        ≠ some (rlpBytes (keccak0 (rlpBytes (List.replicate 33 0)))) := by
  decide

/-- Witness for C8 at a concrete short node with a loaded child. -/
theorem claim_C8_witness :
    (nodeCalcHash keccak0
        (NodeE.short ⟨[], [16], ChildE.hash 1 [128]⟩)).map Prod.snd =
      some (if (rlpList (rlpBytes (toCompact [16]) ++ [128])).length < 32 then
              rlpList (rlpBytes (toCompact [16]) ++ [128])
            else rlpBytes (keccak0 (rlpList (rlpBytes (toCompact [16]) ++ [128])))) :=
  ((claim_C8_refitem_rule keccak0 (fun _ => by simp [keccak0])).2.1
    ⟨[], [16], ChildE.hash 1 [128]⟩ _ rfl).1

/-! ## Aggregated Hash Array — `merkle/aha.rs`

Rust `Vec` free lists are kept in `Vec` order: `push` appends at the end,
`pop` removes the last element, `append` concatenates at the end. -/

/-- One AHA tier: capacity (`aha_len[i]`), backing byte file
(`backends[i]`), and the recycled / pending-recycle free lists. -/
structure Tier where
  cap : Nat
  data : List Nat
  recycled : List Nat
  pending : List Nat
deriving DecidableEq, Repr

/-- `AggregatedHashArray`: the source keeps four parallel vectors built
together by `new`; they are modelled as one list of `Tier` records. -/
structure AhaState where
  tiers : List Tier
deriving DecidableEq, Repr

/-- The tier capacities, in order (`self.aha_len`). -/
def ahaCaps (st : AhaState) : List Nat := st.tiers.map Tier.cap

/-- `AggregatedHashArray::aha_index`: index of the first tier whose
capacity is ≥ `n`; the tier count when `n` exceeds every capacity. -/
def ahaIndex : List Nat → Nat → Nat
  | [], _ => 0
  | c :: rest, n => if n ≤ c then 0 else ahaIndex rest n + 1

/-- The item encoding of `AggregatedHashArray::write_aha`:
`[len as u8][item bytes]` per reference item, concatenated. -/
def ahaEncode (hashs : List (List Nat)) : List Nat :=
  hashs.flatMap (fun h => h.length % 256 :: h)

/-- The part of `AggregatedHashArray::write_aha` after the recycle push:
return `old_cptr` for an empty array, return 0 when the array exceeds
every tier, otherwise allocate (`new_cptr`: pop of the selected tier's
recycled list, else that tier's tail) and write the padded record there. -/
def ahaWriteAlloc (st1 : AhaState) (hashs : List (List Nat)) (oldPtr : Nat) :
    AhaState × Nat :=
  if hashs = [] then
    (st1, oldPtr)
  else
    match st1.tiers[ahaIndex (ahaCaps st1) hashs.length]? with
    | none => (st1, 0)
    | some t =>
        let newPtr := (t.recycled.getLast?).getD t.data.length
        let t1 := match t.recycled.getLast? with
          | some _ => { t with recycled := t.recycled.dropLast }
          | none => t
        let encoded := resize (ahaEncode hashs) (t.cap * 34)
        (AhaState.mk (st1.tiers.set (ahaIndex (ahaCaps st1) hashs.length)
          { t1 with data := bwrite t1.data newPtr encoded }), newPtr)

/-- `AggregatedHashArray::write_aha`.  `none` models the Rust panic when
`old_len > 0` selects no existing tier (`pending_recycle[idx]` out of
range).  Mirrors the source order: first schedule `old_cptr` for
recycling in `old_len`'s tier, then allocate and write. -/
def ahaWrite (st : AhaState) (hashs : List (List Nat)) (oldLen oldPtr : Nat) :
    Option (AhaState × Nat) :=
  if 0 < oldLen then
    match st.tiers[ahaIndex (ahaCaps st) oldLen]? with
    | none => none
    | some t =>
        some (ahaWriteAlloc
          (AhaState.mk (st.tiers.set (ahaIndex (ahaCaps st) oldLen)
            { t with pending := t.pending ++ [oldPtr] }))
          hashs oldPtr)
  else some (ahaWriteAlloc st hashs oldPtr)

/-- `AggregatedHashArray::commit`: move every pending entry into the
active recycled pool, clearing pending. -/
def ahaCommit (st : AhaState) : AhaState :=
  AhaState.mk (st.tiers.map
    (fun t => { t with recycled := t.recycled ++ t.pending, pending := [] }))

/-- Parse `aha_len` length-prefixed items out of an AHA record buffer;
`none` models the Rust slice panics on a short buffer. -/
def parseAhaItems : Nat → List Nat → Option (List (List Nat))
  | 0, _ => some []
  | n + 1, buf =>
    match buf with
    | [] => none
    | len :: rest =>
        if rest.length < len then none
        else do
          let items ← parseAhaItems n (rest.drop len)
          some (rest.take len :: items)

/-- `AggregatedHashArray::read_aha`; `none` models the Rust panic when
`aha_len` exceeds every tier capacity (`self.aha_len[idx]` out of range). -/
def readAha (st : AhaState) (ahaLen ahaPtr : Nat) : Option (List (List Nat)) :=
  match st.tiers[ahaIndex (ahaCaps st) ahaLen]? with
  | none => none
  | some t => parseAhaItems ahaLen (bread t.data ahaPtr (t.cap * 34))

/-- The pending-recycle list of tier `i` (empty for an absent tier). -/
def pendingAt (st : AhaState) (i : Nat) : List Nat :=
  (st.tiers[i]?.map Tier.pending).getD []

/-- The recycled list of tier `i` (empty for an absent tier). -/
def recycledAt (st : AhaState) (i : Nat) : List Nat :=
  (st.tiers[i]?.map Tier.recycled).getD []

/-- The backing data of tier `i` (empty for an absent tier). -/
def dataAt (st : AhaState) (i : Nat) : List Nat :=
  (st.tiers[i]?.map Tier.data).getD []

theorem resize_length (l : List Nat) (n : Nat) : (resize l n).length = n := by
  simp [resize, padTo]
  omega

theorem set_same {α : Type} :
    ∀ (l : List α) (i : Nat) (a : α), l[i]? = some a → l.set i a = l
  | [], i, a => by intro h; simp at h
  | x :: t, 0, a => by
      intro h
      simp at h
      simp [h]
  | x :: t, i + 1, a => by
      intro h
      simp [List.set]
      exact set_same t i a (by simpa using h)

theorem ahaCaps_set (st : AhaState) (i : Nat) (t t' : Tier)
    (h : st.tiers[i]? = some t) (hc : t'.cap = t.cap) :
    ahaCaps (AhaState.mk (st.tiers.set i t')) = ahaCaps st := by
  show (st.tiers.set i t').map Tier.cap = st.tiers.map Tier.cap
  rw [List.map_set, hc]
  exact set_same _ _ _ (by rw [List.getElem?_map, h]; rfl)

theorem ahaWriteAlloc_spec (st1 : AhaState) (hashs : List (List Nat))
    (oldPtr : Nat) (st2 : AhaState) (ptr : Nat)
    (heq : ahaWriteAlloc st1 hashs oldPtr = (st2, ptr)) :
    (∀ i, pendingAt st2 i = pendingAt st1 i) ∧
    (hashs = [] → ptr = oldPtr) ∧
    (hashs ≠ [] → st1.tiers.length ≤ ahaIndex (ahaCaps st1) hashs.length →
      ptr = 0) ∧
    (hashs ≠ [] → ahaIndex (ahaCaps st1) hashs.length < st1.tiers.length →
      ptr = ((recycledAt st1 (ahaIndex (ahaCaps st1) hashs.length)).getLast?).getD
          (dataAt st1 (ahaIndex (ahaCaps st1) hashs.length)).length) := by
  by_cases he : hashs = []
  · subst he
    simp [ahaWriteAlloc] at heq
    obtain ⟨h1, h2⟩ := heq
    subst h1
    subst h2
    exact ⟨fun i => rfl, fun _ => rfl, by simp, by simp⟩
  · cases hg : st1.tiers[ahaIndex (ahaCaps st1) hashs.length]? with
    | none =>
        have hlen : st1.tiers.length ≤ ahaIndex (ahaCaps st1) hashs.length :=
          List.getElem?_eq_none_iff.mp hg
        simp [ahaWriteAlloc, he, hg] at heq
        obtain ⟨h1, h2⟩ := heq
        subst h1
        subst h2
        exact ⟨fun i => rfl, by simp [he], fun _ _ => rfl, by intro _ h; omega⟩
    | some t =>
        have hlt : ahaIndex (ahaCaps st1) hashs.length < st1.tiers.length := by
          by_contra hcon
          rw [List.getElem?_eq_none_iff.mpr (by omega)] at hg
          exact Option.noConfusion hg
        have hpendt : pendingAt st1 (ahaIndex (ahaCaps st1) hashs.length) =
            t.pending := by
          simp [pendingAt, hg]
        cases hr : t.recycled.getLast? with
        | none =>
            simp [ahaWriteAlloc, he, hg, hr] at heq
            obtain ⟨h1, h2⟩ := heq
            subst h1
            subst h2
            refine ⟨?_, by simp [he], by intro _ h; omega, ?_⟩
            · intro i
              by_cases hi : ahaIndex (ahaCaps st1) hashs.length = i
              · subst hi
                simp [pendingAt, List.getElem?_set_eq hlt, hg]
              · simp [pendingAt, List.getElem?_set_ne hi]
            · intro _ _
              simp [recycledAt, dataAt, hg, hr]
        | some c =>
            simp [ahaWriteAlloc, he, hg, hr] at heq
            obtain ⟨h1, h2⟩ := heq
            subst h1
            subst h2
            refine ⟨?_, by simp [he], by intro _ h; omega, ?_⟩
            · intro i
              by_cases hi : ahaIndex (ahaCaps st1) hashs.length = i
              · subst hi
                simp [pendingAt, List.getElem?_set_eq hlt, hg]
              · simp [pendingAt, List.getElem?_set_ne hi]
            · intro _ _
              simp [recycledAt, dataAt, hg, hr]

/-- C3 (amended): for every call `write_aha(hashes, old_len, old_ptr)`
whose `old_len` selects an existing tier when positive: if `old_len > 0`
then `old_ptr` is pushed onto the pending-recycle list of `old_len`'s
tier; the returned pointer is `old_ptr` (not 0) whenever `hashes` is
empty, 0 whenever `hashes` is non-empty and exceeds the biggest tier
capacity, and otherwise a popped slot from the selected tier's recycled
list if one exists, else that tier's current tail. -/
theorem claim_C3_write_aha_contract (st : AhaState) (hashs : List (List Nat))
    (oldLen oldPtr : Nat)
    (hold : 0 < oldLen → ahaIndex (ahaCaps st) oldLen < st.tiers.length) :
    ∃ st' ptr, ahaWrite st hashs oldLen oldPtr = some (st', ptr) ∧
      (0 < oldLen →
        pendingAt st' (ahaIndex (ahaCaps st) oldLen) =
          pendingAt st (ahaIndex (ahaCaps st) oldLen) ++ [oldPtr]) ∧
      (hashs = [] → ptr = oldPtr) ∧
      (hashs ≠ [] → st.tiers.length ≤ ahaIndex (ahaCaps st) hashs.length →
        ptr = 0) ∧
      (hashs ≠ [] → ahaIndex (ahaCaps st) hashs.length < st.tiers.length →
        ptr = ((recycledAt st (ahaIndex (ahaCaps st) hashs.length)).getLast?).getD
          (dataAt st (ahaIndex (ahaCaps st) hashs.length)).length) := by
  by_cases ho : 0 < oldLen
  · have hlt0 := hold ho
    obtain ⟨t0, ht0⟩ : ∃ t, st.tiers[ahaIndex (ahaCaps st) oldLen]? = some t :=
      ⟨_, List.getElem?_eq_getElem hlt0⟩
    have hw : ahaWrite st hashs oldLen oldPtr =
        some (ahaWriteAlloc
          (AhaState.mk (st.tiers.set (ahaIndex (ahaCaps st) oldLen)
            { t0 with pending := t0.pending ++ [oldPtr] }))
          hashs oldPtr) := by
      simp only [ahaWrite, if_pos ho, ht0]
    have hcaps1 : ahaCaps (AhaState.mk (st.tiers.set (ahaIndex (ahaCaps st) oldLen)
        { t0 with pending := t0.pending ++ [oldPtr] })) = ahaCaps st :=
      ahaCaps_set st _ t0 _ ht0 rfl
    have hlen1 : (st.tiers.set (ahaIndex (ahaCaps st) oldLen)
        { t0 with pending := t0.pending ++ [oldPtr] }).length = st.tiers.length :=
      List.length_set ..
    set st1 : AhaState := AhaState.mk (st.tiers.set (ahaIndex (ahaCaps st) oldLen)
      { t0 with pending := t0.pending ++ [oldPtr] }) with hst1
    obtain ⟨st2, ptr2, hsp⟩ : ∃ a b, ahaWriteAlloc st1 hashs oldPtr = (a, b) :=
      ⟨_, _, rfl⟩
    obtain ⟨hpend, hempty, hover, hin⟩ := ahaWriteAlloc_spec st1 hashs oldPtr st2 ptr2 hsp
    refine ⟨st2, ptr2, by rw [hw, hsp], ?_, hempty, ?_, ?_⟩
    · intro _
      rw [hpend]
      simp [pendingAt, hst1, List.getElem?_set_eq hlt0, ht0]
    · intro hne hge
      exact hover hne (by rw [hcaps1, hlen1]; exact hge)
    · intro hne hge
      rw [hin hne (by rw [hcaps1, hlen1]; exact hge), hcaps1]
      have hrec : recycledAt st1 (ahaIndex (ahaCaps st) hashs.length) =
          recycledAt st (ahaIndex (ahaCaps st) hashs.length) := by
        by_cases hi : ahaIndex (ahaCaps st) oldLen = ahaIndex (ahaCaps st) hashs.length
        · rw [hst1]
          simp [recycledAt, ← hi, List.getElem?_set_eq hlt0, ht0]
        · rw [hst1]
          simp [recycledAt, List.getElem?_set_ne hi]
      have hdata : dataAt st1 (ahaIndex (ahaCaps st) hashs.length) =
          dataAt st (ahaIndex (ahaCaps st) hashs.length) := by
        by_cases hi : ahaIndex (ahaCaps st) oldLen = ahaIndex (ahaCaps st) hashs.length
        · rw [hst1]
          simp [dataAt, ← hi, List.getElem?_set_eq hlt0, ht0]
        · rw [hst1]
          simp [dataAt, List.getElem?_set_ne hi]
      rw [hrec, hdata]
  · have hw : ahaWrite st hashs oldLen oldPtr =
        some (ahaWriteAlloc st hashs oldPtr) := by
      simp only [ahaWrite, if_neg ho]
    obtain ⟨st2, ptr2, hsp⟩ : ∃ a b, ahaWriteAlloc st hashs oldPtr = (a, b) :=
      ⟨_, _, rfl⟩
    obtain ⟨hpend, hempty, hover, hin⟩ := ahaWriteAlloc_spec st hashs oldPtr st2 ptr2 hsp
    exact ⟨st2, ptr2, by rw [hw, hsp], fun h => absurd h ho, hempty, hover, hin⟩

theorem caps_getElem? (st : AhaState) (i : Nat) (t : Tier)
    (h : st.tiers[i]? = some t) : (ahaCaps st)[i]? = some t.cap := by
  rw [ahaCaps, List.getElem?_map, h]
  rfl

theorem ahaIndex_le_cap :
    ∀ (caps : List Nat) (n c : Nat), caps[ahaIndex caps n]? = some c → n ≤ c
  | [], n, c => by simp [ahaIndex]
  | cap :: rest, n, c => by
      by_cases h : n ≤ cap
      · simp [ahaIndex, h]
        omega
      · simp only [ahaIndex, if_neg h, List.getElem?_cons_succ]
        exact ahaIndex_le_cap rest n c

theorem bwrite_zero_empty (buf : List Nat) : bwrite [] 0 buf = buf := by
  simp [bwrite, padTo]

theorem ahaCaps_commit (st : AhaState) : ahaCaps (ahaCommit st) = ahaCaps st := by
  simp only [ahaCaps, ahaCommit, List.map_map]
  rfl

theorem tiers_length_commit (st : AhaState) :
    (ahaCommit st).tiers.length = st.tiers.length := by
  simp [ahaCommit]

theorem recycledAt_commit (st : AhaState) (i : Nat) :
    recycledAt (ahaCommit st) i = recycledAt st i ++ pendingAt st i := by
  cases hg : st.tiers[i]? with
  | none => simp [recycledAt, pendingAt, ahaCommit, List.getElem?_map, hg]
  | some t => simp [recycledAt, pendingAt, ahaCommit, List.getElem?_map, hg]

theorem dataAt_commit (st : AhaState) (i : Nat) :
    dataAt (ahaCommit st) i = dataAt st i := by
  cases hg : st.tiers[i]? with
  | none => simp [dataAt, ahaCommit, List.getElem?_map, hg]
  | some t => simp [dataAt, ahaCommit, List.getElem?_map, hg]

/-- C4: a `write_aha` call with `old_len = 0` schedules no recycle entry
in any tier; and starting from a fresh AHA, the first `write_aha(_, 0, _)`
hitting a tier allocates that tier's offset 0, and after `commit()` the
next `write_aha` hitting the same tier does not receive offset 0 back. -/
theorem claim_C4_first_write_not_recycled :
    (∀ st hashs p st' ptr, ahaWrite st hashs 0 p = some (st', ptr) →
      ∀ i, pendingAt st' i = pendingAt st i) ∧
    (∀ st h1 h2 p0 ol op st1 q0 st3 q1,
      (∀ t ∈ st.tiers, t.data = [] ∧ t.recycled = [] ∧ t.pending = []) →
      h1 ≠ [] →
      ahaIndex (ahaCaps st) h1.length < st.tiers.length →
      ahaWrite st h1 0 p0 = some (st1, q0) →
      ahaWrite (ahaCommit st1) h2 ol op = some (st3, q1) →
      h2 ≠ [] →
      ahaIndex (ahaCaps st) h2.length = ahaIndex (ahaCaps st) h1.length →
      q0 = 0 ∧ q1 ≠ 0) := by
  constructor
  · intro st hashs p st' ptr hw i
    rw [ahaWrite, if_neg (by omega)] at hw
    injection hw with hw
    obtain ⟨hpend, _, _, _⟩ :=
      ahaWriteAlloc_spec st hashs p st' ptr hw
    exact hpend i
  · intro st h1 h2 p0 ol op st1 q0 st3 q1 hfresh hne1 hlt hw1 hw2 hne2 hsame
    -- Unpack the first write: `old_len = 0`, so no recycle stage.
    rw [ahaWrite, if_neg (by omega)] at hw1
    injection hw1 with hw1
    -- The selected tier exists and is fresh.
    obtain ⟨t, ht⟩ : ∃ t, st.tiers[ahaIndex (ahaCaps st) h1.length]? = some t :=
      ⟨_, List.getElem?_eq_getElem hlt⟩
    obtain ⟨htd, htr, htp⟩ := hfresh t (List.getElem?_mem ht)
    obtain ⟨tc, td, tr, tp⟩ := t
    simp only at htd htr htp
    subst htd
    subst htr
    subst htp
    -- Reduce the allocation of the first write.
    have hred : ahaWriteAlloc st h1 p0 =
        (AhaState.mk (st.tiers.set (ahaIndex (ahaCaps st) h1.length)
          (Tier.mk tc (resize (ahaEncode h1) (tc * 34)) [] [])), 0) := by
      rw [ahaWriteAlloc, if_neg hne1, ht]
      simp [bwrite_zero_empty]
    rw [hred] at hw1
    injection hw1 with hst1 hq0
    -- First conclusion: the first allocation is offset 0 of the tier.
    refine ⟨hq0.symm, ?_⟩
    -- Shape of `st1`.
    have hcaps1 : ahaCaps st1 = ahaCaps st := by
      rw [← hst1]
      exact ahaCaps_set st _ (Tier.mk tc [] [] []) _ ht rfl
    have hlen1 : st1.tiers.length = st.tiers.length := by
      rw [← hst1]
      exact List.length_set ..
    have hcap_ge : h1.length ≤ tc :=
      ahaIndex_le_cap (ahaCaps st) h1.length tc (caps_getElem? st _ _ ht)
    have hdata1 : dataAt st1 (ahaIndex (ahaCaps st) h1.length) =
        resize (ahaEncode h1) (tc * 34) := by
      rw [← hst1]
      simp [dataAt, List.getElem?_set_eq hlt]
    have hrec1 : ∀ i, recycledAt st1 i = recycledAt st i := by
      intro i
      rw [← hst1]
      by_cases hi : ahaIndex (ahaCaps st) h1.length = i
      · subst hi
        simp [recycledAt, List.getElem?_set_eq hlt, ht]
      · simp [recycledAt, List.getElem?_set_ne hi]
    have hpend1 : ∀ i, pendingAt st1 i = pendingAt st i := by
      intro i
      rw [← hst1]
      by_cases hi : ahaIndex (ahaCaps st) h1.length = i
      · subst hi
        simp [pendingAt, List.getElem?_set_eq hlt, ht]
      · simp [pendingAt, List.getElem?_set_ne hi]
    -- Every recycled and pending list is empty before and after commit.
    have hrec_empty : ∀ i, recycledAt st i = [] := by
      intro i
      cases hg : st.tiers[i]? with
      | none => simp [recycledAt, hg]
      | some u => simp [recycledAt, hg, (hfresh u (List.getElem?_mem hg)).2.1]
    have hpend_empty : ∀ i, pendingAt st i = [] := by
      intro i
      cases hg : st.tiers[i]? with
      | none => simp [pendingAt, hg]
      | some u => simp [pendingAt, hg, (hfresh u (List.getElem?_mem hg)).2.2]
    have hrec2 : ∀ i, recycledAt (ahaCommit st1) i = [] := by
      intro i
      rw [recycledAt_commit, hrec1, hpend1, hrec_empty, hpend_empty]
      rfl
    -- The committed tier data is the full record written by the first write.
    have hdata2 : dataAt (ahaCommit st1) (ahaIndex (ahaCaps st) h1.length) =
        resize (ahaEncode h1) (tc * 34) := by
      rw [dataAt_commit, hdata1]
    have hcaps2 : ahaCaps (ahaCommit st1) = ahaCaps st := by
      rw [ahaCaps_commit, hcaps1]
    have hlen2 : (ahaCommit st1).tiers.length = st.tiers.length := by
      rw [tiers_length_commit, hlen1]
    -- Unpack the second write, through the optional recycle stage.
    have hq1 : q1 =
        ((recycledAt (ahaCommit st1) (ahaIndex (ahaCaps st) h2.length)).getLast?).getD
          (dataAt (ahaCommit st1) (ahaIndex (ahaCaps st) h2.length)).length ∨
        (∃ t0, (ahaCommit st1).tiers[ahaIndex (ahaCaps (ahaCommit st1)) ol]? = some t0 ∧
          q1 = ((recycledAt (AhaState.mk ((ahaCommit st1).tiers.set
              (ahaIndex (ahaCaps (ahaCommit st1)) ol)
              { t0 with pending := t0.pending ++ [op] }))
              (ahaIndex (ahaCaps st) h2.length)).getLast?).getD
            (dataAt (AhaState.mk ((ahaCommit st1).tiers.set
              (ahaIndex (ahaCaps (ahaCommit st1)) ol)
              { t0 with pending := t0.pending ++ [op] }))
              (ahaIndex (ahaCaps st) h2.length)).length) := by
      by_cases hol : 0 < ol
      · rw [ahaWrite, if_pos hol] at hw2
        cases hget : (ahaCommit st1).tiers[ahaIndex (ahaCaps (ahaCommit st1)) ol]? with
        | none => rw [hget] at hw2; exact Option.noConfusion hw2
        | some t0 =>
            rw [hget] at hw2
            injection hw2 with hw2
            right
            refine ⟨t0, rfl, ?_⟩
            obtain ⟨_, _, _, hin⟩ :=
              ahaWriteAlloc_spec _ h2 op st3 q1 hw2
            have hcaps3 : ahaCaps (AhaState.mk ((ahaCommit st1).tiers.set
                (ahaIndex (ahaCaps (ahaCommit st1)) ol)
                { t0 with pending := t0.pending ++ [op] })) = ahaCaps st := by
              rw [ahaCaps_set _ _ t0 { t0 with pending := t0.pending ++ [op] }
                hget rfl, hcaps2]
            have hlen3 : (AhaState.mk ((ahaCommit st1).tiers.set
                (ahaIndex (ahaCaps (ahaCommit st1)) ol)
                { t0 with pending := t0.pending ++ [op] })).tiers.length =
                st.tiers.length := by
              show ((ahaCommit st1).tiers.set _ _).length = _
              rw [List.length_set, hlen2]
            rw [hin hne2 (by rw [hcaps3, hlen3, hsame]; exact hlt), hcaps3]
      · rw [ahaWrite, if_neg hol] at hw2
        injection hw2 with hw2
        obtain ⟨_, _, _, hin⟩ :=
          ahaWriteAlloc_spec _ h2 op st3 q1 hw2
        left
        rw [hin hne2 (by rw [hcaps2, hlen2, hsame]; exact hlt), hcaps2]
    -- In either case the allocation falls back to the tier tail, which is
    -- the non-zero record size `cap * 34`.
    have hcap_pos : 0 < tc := by
      have : 0 < h1.length := List.length_pos.mpr hne1
      omega
    rcases hq1 with hq1 | ⟨t0, hget, hq1⟩
    · rw [hq1, hsame, hrec2, hdata2, resize_length]
      simp
      omega
    · have hrec3 : recycledAt (AhaState.mk ((ahaCommit st1).tiers.set
          (ahaIndex (ahaCaps (ahaCommit st1)) ol)
          { t0 with pending := t0.pending ++ [op] }))
          (ahaIndex (ahaCaps st) h2.length) = [] := by
        by_cases hi : ahaIndex (ahaCaps (ahaCommit st1)) ol =
            ahaIndex (ahaCaps st) h2.length
        · rw [← hi]
          have hlt' : ahaIndex (ahaCaps (ahaCommit st1)) ol <
              (ahaCommit st1).tiers.length := by
            by_contra hcon
            rw [List.getElem?_eq_none_iff.mpr (by omega)] at hget
            exact Option.noConfusion hget
          simp only [recycledAt, List.getElem?_set_eq hlt', Option.map_some,
            Option.getD_some]
          have := hrec2 (ahaIndex (ahaCaps (ahaCommit st1)) ol)
          simp only [recycledAt, hget, Option.map_some, Option.getD_some] at this
          exact this
        · simp only [recycledAt, List.getElem?_set_ne hi]
          exact hrec2 _
      have hdata3 : dataAt (AhaState.mk ((ahaCommit st1).tiers.set
          (ahaIndex (ahaCaps (ahaCommit st1)) ol)
          { t0 with pending := t0.pending ++ [op] }))
          (ahaIndex (ahaCaps st) h2.length) =
          dataAt (ahaCommit st1) (ahaIndex (ahaCaps st) h2.length) := by
        by_cases hi : ahaIndex (ahaCaps (ahaCommit st1)) ol =
            ahaIndex (ahaCaps st) h2.length
        · rw [← hi]
          have hlt' : ahaIndex (ahaCaps (ahaCommit st1)) ol <
              (ahaCommit st1).tiers.length := by
            by_contra hcon
            rw [List.getElem?_eq_none_iff.mpr (by omega)] at hget
            exact Option.noConfusion hget
          simp only [dataAt, List.getElem?_set_eq hlt', Option.map_some,
            Option.getD_some, hget]
          rfl
        · simp only [dataAt, List.getElem?_set_ne hi]
      rw [hq1, hrec3, hdata3, hsame, hdata2, resize_length]
      simp
      omega

/-- Concrete one-tier AHA state for the C4 witness. -/
def c4st : AhaState := AhaState.mk [⟨8, [], [], []⟩]

/-- First batch of 8 reference items for the C4 witness. -/
def c4h1 : List (List Nat) := List.replicate 8 (List.replicate 32 1)

/-- Second batch of 8 reference items for the C4 witness. -/
def c4h2 : List (List Nat) := List.replicate 8 (List.replicate 32 2)

/-- The state after the first C4 witness write: the record sits at offset
0 of the single tier, whose stride is `8 * 34 = 272` bytes. -/
def c4st1 : AhaState :=
  AhaState.mk [⟨8, resize (ahaEncode c4h1) 272, [], []⟩]

set_option maxRecDepth 4000 in
/-- Witness for C4: one tier of capacity 8; the first write of 8 items
allocates offset 0, and after commit the next write of 8 items does not
receive offset 0 back. -/
theorem claim_C4_witness :
    ahaWrite c4st c4h1 0 0 = some (c4st1, 0) ∧
      (ahaWrite (ahaCommit c4st1) c4h2 8 0).map Prod.snd ≠ some 0 := by
  have hw1 : ahaWrite c4st c4h1 0 0 = some (c4st1, 0) := by decide
  obtain ⟨st3, q1, hw2⟩ : ∃ a b,
      ahaWrite (ahaCommit c4st1) c4h2 8 0 = some (a, b) := by
    rcases hh : ahaWrite (ahaCommit c4st1) c4h2 8 0 with _ | ⟨a, b⟩
    · have hs : (ahaWrite (ahaCommit c4st1) c4h2 8 0).isSome = true := by decide
      rw [hh] at hs
      exact absurd hs (by simp)
    · exact ⟨a, b, rfl⟩
  have hmain := claim_C4_first_write_not_recycled.2 c4st c4h1 c4h2 0 8 0 c4st1 0
    st3 q1 (by decide) (by decide) (by decide) hw1 hw2 (by decide) (by decide)
  exact ⟨hw1, by rw [hw2]; simpa using hmain.2⟩

/-- Counterexample to C3 as stated: with one tier of capacity 8,
`write_aha([], old_len = 1, old_ptr = 34)` returns 34 (the old pointer),
not 0, although `hashes` is empty. -/
theorem claim_C3_counterexample :
    (ahaWrite (AhaState.mk [⟨8, [], [], []⟩]) [] 1 34).map Prod.snd = some 34 ∧
      (ahaWrite (AhaState.mk [⟨8, [], [], []⟩]) [] 1 34).map Prod.snd ≠ some 0 := by
  decide

/-- Witness for C3 at a concrete state: one tier of capacity 8 with a
recycled slot 34; writing one 3-byte item with `old_len = 2` pushes
`old_ptr = 68` to pending and returns the popped recycled slot 34. -/
theorem claim_C3_witness :
    ∃ st' ptr,
      ahaWrite (AhaState.mk [⟨8, List.replicate 272 0, [34], []⟩]) [[1, 2, 3]] 2 68 =
          some (st', ptr) ∧
        (0 < 2 →
          pendingAt st' (ahaIndex (ahaCaps (AhaState.mk [⟨8, List.replicate 272 0, [34], []⟩])) 2) =
            pendingAt (AhaState.mk [⟨8, List.replicate 272 0, [34], []⟩])
              (ahaIndex (ahaCaps (AhaState.mk [⟨8, List.replicate 272 0, [34], []⟩])) 2) ++ [68]) ∧
        (([[1, 2, 3]] : List (List Nat)) = [] → ptr = 68) ∧
        (([[1, 2, 3]] : List (List Nat)) ≠ [] →
          (AhaState.mk [⟨8, List.replicate 272 0, [34], []⟩]).tiers.length ≤
            ahaIndex (ahaCaps (AhaState.mk [⟨8, List.replicate 272 0, [34], []⟩])) 1 → ptr = 0) ∧
        (([[1, 2, 3]] : List (List Nat)) ≠ [] →
          ahaIndex (ahaCaps (AhaState.mk [⟨8, List.replicate 272 0, [34], []⟩])) 1 <
            (AhaState.mk [⟨8, List.replicate 272 0, [34], []⟩]).tiers.length →
          ptr = ((recycledAt (AhaState.mk [⟨8, List.replicate 272 0, [34], []⟩])
            (ahaIndex (ahaCaps (AhaState.mk [⟨8, List.replicate 272 0, [34], []⟩])) 1)).getLast?).getD
            (dataAt (AhaState.mk [⟨8, List.replicate 272 0, [34], []⟩])
              (ahaIndex (ahaCaps (AhaState.mk [⟨8, List.replicate 272 0, [34], []⟩])) 1)).length) :=
  claim_C3_write_aha_contract (AhaState.mk [⟨8, List.replicate 272 0, [34], []⟩])
    [[1, 2, 3]] 2 68 (by decide)

/-! ## Node store — `merkle/store.rs`

The store's clean LRU cache and its append-only byte backend are modelled
as one logical association list `clean` (see the header comment); the raw
bytes of the backend are `backendData`, used by `add_node`. -/

/-- `NodeStore` state. -/
structure StoreState where
  dirty : List (Option NodeE)
  clean : List (Nat × NodeE)
  backendData : List Nat
  aha : Option AhaState
deriving DecidableEq, Repr

/-- `NodeStore::add_dirty`: push onto the arena, returning the new index. -/
def addDirty (st : StoreState) (n : Option NodeE) : StoreState × Nat :=
  ({ st with dirty := st.dirty ++ [n] }, st.dirty.length)

/-- `NodeStore::put_dirty`; `none` models the Rust index panic. -/
def putDirty (st : StoreState) (d : Nat) (n : Option NodeE) : Option StoreState :=
  if d < st.dirty.length then some { st with dirty := st.dirty.set d n } else none

/-- `NodeStore::take_dirty`; `none` models the Rust index panic. -/
def takeDirty (st : StoreState) (d : Nat) : Option (Option NodeE × StoreState) :=
  match st.dirty[d]? with
  | none => none
  | some x => some (x, { st with dirty := st.dirty.set d none })

/-- `NodeStore::get_dirty`; `none` models the Rust index panic. -/
def getDirty (st : StoreState) (d : Nat) : Option (Option NodeE) := st.dirty[d]?

/-- Count of children whose reference item still needs loading
(`None` or `Ptr(Clean)` slots), as in `NodeStore::load_aha`. -/
def cntNeeded (children : List (Option ChildE)) : Nat :=
  (children.filter (fun c => match c with
    | none => true
    | some (ChildE.ptr (NodePtrE.clean _)) => true
    | _ => false)).length

/-- The projection loop of `NodeStore::load_aha` over `validate_bnode`:
each `Ptr(Clean)` slot consumes one item and becomes `Hash`; each
already-loaded `Hash` slot consumes (and discards) one item; other slots
are untouched.  Returns the new slots and the remaining items; `none`
models the `hashs.remove(0)` panic on an exhausted item list. -/
def projectAha : List (Option ChildE) → List (List Nat) →
    Option (List (Option ChildE) × List (List Nat))
  | [], hs => some ([], hs)
  | some (ChildE.ptr (NodePtrE.clean c)) :: rest, hs =>
      match hs with
      | [] => none
      | h :: hs' => do
          let (rest', hs'') ← projectAha rest hs'
          some (some (ChildE.hash c h) :: rest', hs'')
  | some (ChildE.hash c h) :: rest, hs =>
      match hs with
      | [] => none
      | _ :: hs' => do
          let (rest', hs'') ← projectAha rest hs'
          some (some (ChildE.hash c h) :: rest', hs'')
  | slot :: rest, hs => do
      let (rest', hs'') ← projectAha rest hs
      some (slot :: rest', hs'')

/-- `NodeStore::load_aha`: for a branch with an AHA blob and unresolved
children, read the blob, project it into the child slots, recompute the
branch reference item from the projection and compare it against the
stored one; adopt the projected children only on a match, silently
keeping the branch unchanged otherwise.  `none` models the Rust panics
(`read_aha` tier overflow, the two asserts, `calc_hash().unwrap()`). -/
def loadAha (keccak : List Nat → List Nat) (aha : Option AhaState) (n : NodeE) :
    Option NodeE :=
  match aha, n with
  | some st, NodeE.branch b =>
      if 0 < b.aha_len ∧ 0 < cntNeeded b.children then
        match readAha st b.aha_len b.aha_ptr with
        | none => none
        | some hashs =>
            if hashs.length ≠ b.aha_len then none
            else
              match projectAha b.children hashs with
              | none => none
              | some (children', rest) =>
                  if rest ≠ [] then none
                  else
                    match nodeCalcHash keccak
                        (NodeE.branch { b with children := children' }) with
                    | none => none
                    | some (_, vh) =>
                        if b.hash = vh then
                          some (NodeE.branch { b with children := children' })
                        else
                          some (NodeE.branch b)
      else some (NodeE.branch b)
  | _, _ => some n

/-- One slot of `NodeStore::load_children_hash`: a `Ptr(Clean)` child is
loaded from the store and replaced by `Hash(cptr, child.hash())`; `none`
models the `get_clean` unwrap panic. -/
def loadChildSlot (clean : List (Nat × NodeE)) :
    Option ChildE → Option (Option ChildE)
  | some (ChildE.ptr (NodePtrE.clean c)) =>
      match alookup clean c with
      | none => none
      | some child => some (some (ChildE.hash c (childRef child)))
  | other => some other

/-- `NodeStore::load_children_hash`. -/
def loadChildrenHash (clean : List (Nat × NodeE)) (n : NodeE) : Option NodeE :=
  match n with
  | NodeE.branch b => do
      let children' ← b.children.mapM (loadChildSlot clean)
      some (NodeE.branch { b with children := children' })
  | NodeE.short s =>
      match s.child with
      | ChildE.ptr (NodePtrE.clean c) =>
          match alookup clean c with
          | none => none
          | some child =>
              some (NodeE.short { s with child := ChildE.hash c (childRef child) })
      | _ => some (NodeE.short s)
  | NodeE.value v => some (NodeE.value v)

/-- `NodeStore::cow_clean`: load the clean node (the merged LRU+backend
view), run `load_aha` on it, and install the copy in the dirty arena. -/
def cowClean (keccak : List Nat → List Nat) (st : StoreState) (c : Nat) :
    Option (StoreState × Nat) :=
  match alookup st.clean c with
  | none => none
  | some n =>
      match loadAha keccak st.aha n with
      | none => none
      | some n' => some (addDirty st (some n'))

/-- `NodeStore::add_node`, over an abstract storage encoder `enc` (the
storage byte codec itself is not needed by any claim): the record
`[u16_le length][encoding]` is written at the backend tail
(`backend.tail()`), and the node is inserted into the clean map at that
offset. -/
def addNode (enc : NodeE → List Nat) (st : StoreState) (n : NodeE) :
    StoreState × Nat :=
  let encoded := enc n
  let buf := (encoded.length % 256) :: (encoded.length / 256 % 256) :: encoded
  let c := st.backendData.length
  ({ st with backendData := bwrite st.backendData c buf,
             clean := (c, n) :: st.clean }, c)

/-- `NodeStore::write_aha`: for a branch with AHA enabled, collect the
child reference items in slot order (a still-unloaded `Ptr(Clean)` child
is the panic "child is not loaded"; dirty pointers and empty slots are
skipped), set the branch `aha_len` to the item count (`hashs.len() as
u8`), call `AggregatedHashArray::write_aha` with the previous
length/pointer, and store the returned pointer.  Other nodes, or a
disabled AHA, are untouched. -/
def collectChildHashs : List (Option ChildE) → Option (List (List Nat))
  | [] => some []
  | none :: rest => collectChildHashs rest
  | some (ChildE.hash _ h) :: rest => do
      let hs ← collectChildHashs rest
      some (h :: hs)
  | some (ChildE.ptr (NodePtrE.clean _)) :: _ => none
  | some (ChildE.ptr (NodePtrE.dirty _)) :: rest => collectChildHashs rest

/-- See `collectChildHashs`; this is `NodeStore::write_aha` itself. -/
def storeWriteAha (aha : Option AhaState) (n : NodeE) :
    Option (Option AhaState × NodeE) :=
  match aha, n with
  | some st, NodeE.branch b => do
      let hashs ← collectChildHashs b.children
      let (st', ptr) ← ahaWrite st hashs b.aha_len b.aha_ptr
      some (some st', NodeE.branch
        { b with aha_len := hashs.length % 256, aha_ptr := ptr })
  | _, _ => some (aha, n)

/-- The default `DBConfig` AHA tiers `{4, 8, 12, 16}`, all empty. -/
def defaultAha : AhaState :=
  AhaState.mk [⟨4, [], [], []⟩, ⟨8, [], [], []⟩, ⟨12, [], [], []⟩, ⟨16, [], [], []⟩]

/-- A committed-shape branch with all 17 child reference items loaded. -/
def fullBranch : BranchN :=
  { hash := [], children := List.replicate 17 (some (ChildE.hash 1 [128])),
    aha_len := 0, aha_ptr := 0 }

/-- C2 (code bug): under the default tiers `{4, 8, 12, 16}`, the store's
`write_aha` on a branch with 17 loaded children stores nothing in any
tier (the AHA state is unchanged and the pointer is 0) but sets the
branch's `aha_len` to 17 instead of leaving it 0, so a later `load_aha`
of that branch does attempt an AHA read, which panics with the tier index
out of range (`read_aha` returns `none` in the model). -/
theorem claim_C2_oversize_branch_aha_len :
    storeWriteAha (some defaultAha) (NodeE.branch fullBranch) =
        some (some defaultAha,
          NodeE.branch { fullBranch with aha_len := 17, aha_ptr := 0 }) ∧
      (17 : Nat) ≠ 0 ∧
      readAha defaultAha 17 0 = none := by
  refine ⟨by decide, by decide, by decide⟩

/-! ## Trie engine state and root hash — `merkle/merkle.rs` -/

/-- `Merkle`: shared store, committed root pointer, optional dirty root. -/
structure MerkleState where
  store : StoreState
  root_cptr : Nat
  root_dptr : Option Nat
deriving DecidableEq, Repr

/-- `Merkle::hash` as a function of the clean store and the committed
root pointer only (the source never touches `root_dptr` here):
`keccak256(0x80)` when the root is 0, else the keccak of the canonical
RLP of the root node with child reference items materialized. -/
def hashOf (keccak : List Nat → List Nat) (clean : List (Nat × NodeE))
    (rootC : Nat) : Option (List Nat) :=
  if rootC = 0 then some (keccak [128])
  else
    match alookup clean rootC with
    | none => none
    | some n =>
        match loadChildrenHash clean n with
        | none => none
        | some n' =>
            match nodeRlp n' with
            | none => none
            | some raw => some (keccak raw)

/-- `Merkle::hash` on the full trie state. -/
def mhash (keccak : List Nat → List Nat) (m : MerkleState) : Option (List Nat) :=
  hashOf keccak m.store.clean m.root_cptr

/-- The empty node store. -/
def emptyStore : StoreState := ⟨[], [], [], none⟩

/-- A freshly created empty trie. -/
def emptyMerkle : MerkleState := ⟨emptyStore, 0, none⟩

/-- C9: when the committed root pointer is 0 (the empty trie), `hash()`
returns `keccak256` of the single byte `0x80`. -/
theorem claim_C9_empty_trie_hash (keccak : List Nat → List Nat)
    (m : MerkleState) (h : m.root_cptr = 0) :
    mhash keccak m = some (keccak [128]) := by
  simp [mhash, hashOf, h]

/-- Witness for C9 at the empty trie. -/
theorem claim_C9_witness :
    emptyMerkle.root_cptr = 0 ∧ mhash keccak0 emptyMerkle = some (keccak0 [128]) :=
  ⟨rfl, claim_C9_empty_trie_hash keccak0 emptyMerkle rfl⟩

/-! ## `Merkle::find` and historical-root stability -/

/-- Resolve a node pointer as `Merkle::find` does: a clean pointer loads
from the store (`none` = panic on a missing/corrupt record); a dirty
pointer reads the arena (`some none` = empty slot, on which find breaks
with a miss). -/
def resolveNode (st : StoreState) : NodePtrE → Option (Option NodeE)
  | NodePtrE.clean c =>
      match alookup st.clean c with
      | none => none
      | some n => some (some n)
  | NodePtrE.dirty d =>
      match st.dirty[d]? with
      | none => none
      | some none => some none
      | some (some n) => some (some n)

/-- The `Merkle::find` walk with explicit fuel (the Rust loop would
diverge on a malformed trie with an empty-path short; `path.length + 2`
fuel suffices for well-formed tries).  Outer `none` models a Rust panic
(missing node, assert failure); `some none` is a miss; `some (some v)` a
hit.  Mirrors the loop: branches consume one nibble, shorts their whole
path, values require the path to be exhausted. -/
def findLoop (st : StoreState) (path : List Nat) :
    Nat → NodePtrE → Nat → Option (Option ValueN)
  | 0, _, _ => none
  | fuel + 1, curPtr, i =>
    if i ≤ path.length then
      match resolveNode st curPtr with
      | none => none
      | some none => some none
      | some (some (NodeE.branch b)) =>
          if i < path.length then
            match b.children[path.getD i 0]? with
            | none => none
            | some none => some none
            | some (some (ChildE.ptr p)) => findLoop st path fuel p (i + 1)
            | some (some (ChildE.hash c _)) =>
                findLoop st path fuel (NodePtrE.clean c) (i + 1)
          else none
      | some (some (NodeE.short s)) =>
          if i < path.length then
            if commonPrefixLen s.path (path.drop i) = s.path.length then
              match s.child with
              | ChildE.ptr p =>
                  findLoop st path fuel p (i + commonPrefixLen s.path (path.drop i))
              | ChildE.hash c _ =>
                  findLoop st path fuel (NodePtrE.clean c)
                    (i + commonPrefixLen s.path (path.drop i))
            else some none
          else none
      | some (some (NodeE.value v)) =>
          if i = path.length then some (some v) else none
    else some none

/-- `Merkle::find` (modulo the LRU re-touch loop, which only affects
cache temperature): convert the key to a nibble path with terminator and
walk from the dirty root if present, else from the committed root. -/
def mfind (m : MerkleState) (key : List Nat) (fuel : Nat) :
    Option (Option ValueN) :=
  if m.root_cptr = 0 ∧ m.root_dptr = none then some none
  else
    findLoop m.store (toPath key) fuel
      (match m.root_dptr with
       | some d => NodePtrE.dirty d
       | none => NodePtrE.clean m.root_cptr) 0

/-- A child slot that is not a dirty-arena pointer. -/
def childNotDirty : Option ChildE → Bool
  | some (ChildE.ptr (NodePtrE.dirty _)) => false
  | _ => true

/-- No child of the node is a dirty-arena pointer — true of every
persisted node: the storage codec only produces `Ptr(Clean)` children,
and commit replaces every dirty pointer by `Hash` before `add_node`. -/
def nodeNoDirty : NodeE → Bool
  | NodeE.branch b => b.children.all childNotDirty
  | NodeE.short s => childNotDirty (some s.child)
  | NodeE.value _ => true

/-- Every node in the clean map has no dirty children. -/
def cleanWF (clean : List (Nat × NodeE)) : Prop :=
  ∀ p ∈ clean, nodeNoDirty p.2 = true

/-- `clean'` preserves every binding of `clean` (what later commits do to
the store: they only add records at fresh offsets). -/
def cleanExtends (clean clean' : List (Nat × NodeE)) : Prop :=
  ∀ c n, alookup clean c = some n → alookup clean' c = some n

theorem cleanExtends_cons (l : List (Nat × NodeE)) (k : Nat) (n : NodeE)
    (h : alookup l k = none) : cleanExtends l ((k, n) :: l) := by
  intro c m hc
  by_cases hk : k = c
  · subst hk
    rw [h] at hc
    exact Option.noConfusion hc
  · simpa [alookup, hk] using hc

theorem findLoop_stable (st st' : StoreState) (path : List Nat)
    (hwf : cleanWF st.clean) (hext : cleanExtends st.clean st'.clean) :
    ∀ fuel c i r, findLoop st path fuel (NodePtrE.clean c) i = some r →
      findLoop st' path fuel (NodePtrE.clean c) i = some r := by
  intro fuel
  induction fuel with
  | zero =>
      intro c i r h
      exact absurd h (by simp [findLoop])
  | succ fuel ih =>
      intro c i r h
      rw [findLoop] at h ⊢
      by_cases hi : i ≤ path.length
      · rw [if_pos hi] at h ⊢
        cases hlk : alookup st.clean c with
        | none =>
            simp only [resolveNode, hlk] at h
            exact Option.noConfusion h
        | some n =>
            have hlk' := hext c n hlk
            have hnd : nodeNoDirty n = true :=
              hwf (c, n) (alookup_mem st.clean c n hlk)
            cases n with
            | value v =>
                simp only [resolveNode, hlk] at h
                simp only [resolveNode, hlk']
                exact h
            | branch b =>
                simp only [resolveNode, hlk] at h
                simp only [resolveNode, hlk']
                by_cases hil : i < path.length
                · rw [if_pos hil] at h ⊢
                  cases hch : b.children[path.getD i 0]? with
                  | none =>
                      rw [hch] at h
                      exact Option.noConfusion h
                  | some slot =>
                      rw [hch] at h
                      cases slot with
                      | none => exact h
                      | some child =>
                          cases child with
                          | ptr p =>
                              cases p with
                              | clean c' => exact ih c' (i + 1) r h
                              | dirty d =>
                                  have hmem :
                                      some (ChildE.ptr (NodePtrE.dirty d)) ∈ b.children :=
                                    List.getElem?_mem hch
                                  simp only [nodeNoDirty] at hnd
                                  have := (List.all_eq_true.mp hnd) _ hmem
                                  simp [childNotDirty] at this
                          | hash c' hh => exact ih c' (i + 1) r h
                · rw [if_neg hil] at h
                  exact Option.noConfusion h
            | short s =>
                simp only [resolveNode, hlk] at h
                simp only [resolveNode, hlk']
                by_cases hil : i < path.length
                · rw [if_pos hil] at h ⊢
                  by_cases hsh : commonPrefixLen s.path (path.drop i) = s.path.length
                  · rw [if_pos hsh] at h ⊢
                    cases hcs : s.child with
                    | ptr p =>
                        cases p with
                        | clean c' =>
                            rw [hcs] at h
                            exact ih c' _ r h
                        | dirty d =>
                            simp [nodeNoDirty, hcs, childNotDirty] at hnd
                    | hash c' hh =>
                        rw [hcs] at h
                        exact ih c' _ r h
                  · rw [if_neg hsh] at h ⊢
                    exact h
                · rw [if_neg hil] at h
                  exact Option.noConfusion h
      · rw [if_neg hi] at h ⊢
        exact h

/-- C1: historical roots are immutable.  Three parts, matching the
claim's reasoning.  (1) Reads against a committed root (`open_root`
yields `root_dptr = none`) are stable under any extension of the clean
store: whatever `find` answered before later commits, it answers
afterwards.  (2) `add_node` always appends at the backend tail: the new
record's offset is the old tail and no byte below the old tail changes,
and the clean map is extended (at a fresh offset).  (3) A stale AHA blob
is rejected: `load_aha` either leaves the branch unchanged or adopts a
projection whose recomputed reference item equals the stored one, so a
recycled-and-rewritten slot cannot corrupt an old branch. -/
theorem claim_C1_historical_roots_immutable :
    (∀ (st st' : StoreState) (rootC : Nat) (key : List Nat) (fuel : Nat)
        (r : Option ValueN),
      cleanWF st.clean → cleanExtends st.clean st'.clean →
      mfind ⟨st, rootC, none⟩ key fuel = some r →
      mfind ⟨st', rootC, none⟩ key fuel = some r) ∧
    (∀ (enc : NodeE → List Nat) (st : StoreState) (n : NodeE),
      (addNode enc st n).2 = st.backendData.length ∧
      (∀ i, i < st.backendData.length →
        (addNode enc st n).1.backendData[i]? = st.backendData[i]?) ∧
      (alookup st.clean st.backendData.length = none →
        cleanExtends st.clean (addNode enc st n).1.clean)) ∧
    (∀ (keccak : List Nat → List Nat) (a : Option AhaState) (b : BranchN)
        (n' : NodeE),
      loadAha keccak a (NodeE.branch b) = some n' →
      n' = NodeE.branch b ∨
      ∃ children', n' = NodeE.branch { b with children := children' } ∧
        (nodeCalcHash keccak
          (NodeE.branch { b with children := children' })).map Prod.snd =
            some b.hash) := by
  refine ⟨?_, ?_, ?_⟩
  · intro st st' rootC key fuel r hwf hext h
    rw [mfind] at h ⊢
    by_cases h0 : rootC = 0 ∧ (none : Option Nat) = none
    · simpa [h0] using h
    · rw [if_neg h0] at h ⊢
      exact findLoop_stable st st' (toPath key) hwf hext fuel rootC 0 r h
  · intro enc st n
    refine ⟨rfl, ?_, ?_⟩
    · intro i hilt
      show (bwrite st.backendData st.backendData.length _)[i]? = _
      rw [bwrite_at_tail, List.getElem?_append, if_pos hilt]
    · intro hfresh
      exact cleanExtends_cons st.clean st.backendData.length n hfresh
  · intro keccak a b n' h
    match a with
    | none =>
        simp only [loadAha] at h
        exact Or.inl (Option.some.inj h).symm
    | some st =>
        simp only [loadAha] at h
        by_cases hcond : 0 < b.aha_len ∧ 0 < cntNeeded b.children
        · rw [if_pos hcond] at h
          cases hra : readAha st b.aha_len b.aha_ptr with
          | none =>
              simp only [hra] at h
              exact Option.noConfusion h
          | some hashs =>
              simp only [hra] at h
              by_cases hl : hashs.length ≠ b.aha_len
              · rw [if_pos hl] at h
                exact Option.noConfusion h
              · rw [if_neg hl] at h
                cases hpj : projectAha b.children hashs with
                | none =>
                    simp only [hpj] at h
                    exact Option.noConfusion h
                | some pr =>
                    obtain ⟨children', rest⟩ := pr
                    simp only [hpj] at h
                    by_cases hrest : rest ≠ []
                    · rw [if_pos hrest] at h
                      exact Option.noConfusion h
                    · rw [if_neg hrest] at h
                      cases hch : nodeCalcHash keccak
                          (NodeE.branch { b with children := children' }) with
                      | none =>
                          simp only [hch] at h
                          exact Option.noConfusion h
                      | some pr2 =>
                          obtain ⟨nn, vh⟩ := pr2
                          simp only [hch] at h
                          by_cases hv : b.hash = vh
                          · rw [if_pos hv] at h
                            injection h with h
                            refine Or.inr ⟨children', h.symm, ?_⟩
                            rw [hch, hv]
                            rfl
                          · rw [if_neg hv] at h
                            injection h with h
                            exact Or.inl h.symm
        · rw [if_neg hcond] at h
          injection h with h
          exact Or.inl h.symm

/-- A small committed store: a short node at offset 5 covering key `[1]`
(nibbles `[0, 1, 16]`), whose child at offset 9 is the value `[7]`. -/
def c1store : StoreState :=
  ⟨[], [(5, NodeE.short ⟨[], [0, 1, 16], ChildE.ptr (NodePtrE.clean 9)⟩),
        (9, NodeE.value ⟨[7], []⟩)], [], none⟩

/-- `c1store` after a later commit appended a record at offset 20. -/
def c1store2 : StoreState :=
  ⟨[], (20, NodeE.value ⟨[9], []⟩) :: c1store.clean, [], none⟩

/-- Witness for C1: the value of key `[1]` read against root 5 survives a
later append; `add_node` extends the clean map; `load_aha` with AHA
disabled leaves the node unchanged. -/
theorem claim_C1_witness :
    mfind ⟨c1store2, 5, none⟩ [1] 4 = some (some ⟨[7], []⟩) ∧
      cleanExtends c1store.clean
        (addNode (fun _ => []) c1store (NodeE.value ⟨[1], []⟩)).1.clean ∧
      (NodeE.branch fullBranch = NodeE.branch fullBranch ∨
        ∃ children',
          NodeE.branch fullBranch =
              NodeE.branch { fullBranch with children := children' } ∧
            (nodeCalcHash keccak0
              (NodeE.branch { fullBranch with children := children' })).map
                Prod.snd = some fullBranch.hash) :=
  ⟨claim_C1_historical_roots_immutable.1 c1store c1store2 5 [1] 4
      (some ⟨[7], []⟩) (by unfold cleanWF; decide)
      (cleanExtends_cons c1store.clean 20 (NodeE.value ⟨[9], []⟩) (by decide))
      (by decide),
    (claim_C1_historical_roots_immutable.2.1 (fun _ => []) c1store
      (NodeE.value ⟨[1], []⟩)).2.2 (by decide),
    claim_C1_historical_roots_immutable.2.2 keccak0 none fullBranch
      (NodeE.branch fullBranch) (by decide)⟩

/-! ## DB facade — `db.rs` -/

/-- Association-list lookup keyed by byte strings (the value cache). -/
def blookup : List (List Nat × Option (List Nat)) → List Nat →
    Option (Option (List Nat))
  | [], _ => none
  | (k, v) :: t, c => if k = c then some v else blookup t c

/-- `DB` state: the merkle engine over the shared node store and the
optional positive-and-negative value cache (`none` = disabled; the LRU
byte budget and eviction are not modelled — only insert, lookup and
clear, which is all the claims touch). -/
structure DBState where
  merkle : MerkleState
  cache : Option (List (List Nat × Option (List Nat)))
deriving DecidableEq, Repr

/-- `DB::open_root`: a no-op when the requested root is already the
current one (early return); otherwise replace the merkle engine by
`Merkle::new` over the shared store and clear the value cache. -/
def openRoot (db : DBState) (rootC : Nat) : DBState :=
  if db.merkle.root_cptr = rootC then db
  else
    { merkle := ⟨db.merkle.store, rootC, none⟩,
      cache := db.cache.map (fun _ => []) }

/-- `DB::get`: serve from the value cache when enabled and hit; on a miss
compute via `find` (projecting `.value`), populate the cache, and return.
`none` models a find panic. -/
def dbGet (db : DBState) (key : List Nat) (fuel : Nat) :
    Option (DBState × Option (List Nat)) :=
  match db.cache with
  | some cache =>
      match blookup cache key with
      | some v => some (db, v)
      | none =>
          match mfind db.merkle key fuel with
          | none => none
          | some res =>
              some ({ db with cache := some ((key, res.map ValueN.value) :: cache) },
                res.map ValueN.value)
  | none =>
      match mfind db.merkle key fuel with
      | none => none
      | some res => some (db, res.map ValueN.value)

/-- C5 (amended): `open_root(r)` for a root `r` different from the
currently open one clears the value cache (all positive and negative
entries) and rebuilds the merkle engine at root `r` with no dirty root,
so the next `get` of any key is answered by a cache-disabled `find`
against root `r`; `open_root` of the currently open root is a no-op that
leaves the cache intact. -/
theorem claim_C5_open_root_clears_cache (db : DBState) (rootC : Nat)
    (hne : db.merkle.root_cptr ≠ rootC) :
    (openRoot db rootC).cache = db.cache.map (fun _ => []) ∧
      (openRoot db rootC).merkle = ⟨db.merkle.store, rootC, none⟩ ∧
      (∀ key fuel res,
        mfind ⟨db.merkle.store, rootC, none⟩ key fuel = some res →
        (dbGet (openRoot db rootC) key fuel).map Prod.snd =
          some (res.map ValueN.value)) := by
  refine ⟨by rw [openRoot, if_neg hne], by rw [openRoot, if_neg hne], ?_⟩
  intro key fuel res hres
  rw [openRoot, if_neg hne]
  cases hc : db.cache with
  | none => simp [dbGet, hres]
  | some cache => simp [dbGet, blookup, hres]

/-- Counterexample to C5 as stated ("including the currently open one"):
`open_root` of the current root returns early and leaves the non-empty
value cache in place. -/
theorem claim_C5_counterexample :
    (openRoot ⟨⟨c1store, 5, none⟩, some [([1], some [9])]⟩ 5).cache =
        some [([1], some [9])] ∧
      (openRoot ⟨⟨c1store, 5, none⟩, some [([1], some [9])]⟩ 5).cache ≠
        some [] := by
  decide

/-- Witness for C5: opening root 5 from current root 3 clears the cache
and the first get of key `[1]` is answered by `find` against root 5. -/
theorem claim_C5_witness :
    (openRoot ⟨⟨c1store, 3, none⟩, some [([1], some [9])]⟩ 5).cache = some [] ∧
      (dbGet (openRoot ⟨⟨c1store, 3, none⟩, some [([1], some [9])]⟩ 5) [1] 4).map
          Prod.snd = some (some [7]) :=
  ⟨(claim_C5_open_root_clears_cache ⟨⟨c1store, 3, none⟩, some [([1], some [9])]⟩ 5
      (by decide)).1,
    (claim_C5_open_root_clears_cache ⟨⟨c1store, 3, none⟩, some [([1], some [9])]⟩ 5
      (by decide)).2.2 [1] 4 (some ⟨[7], []⟩) (by decide)⟩

/-! ## `Merkle::insert` — `merkle/merkle.rs` -/

/-- Final step of the split: set the two branch slots (old short side
first, as in the source) and install the branch, behind a prefix short
when `shared > 0`.  The slot indices must be within the 17-entry array
(the Rust array index would panic otherwise). -/
def insertSplitEnd (path : List Nat) (st3 : StoreState)
    (curD shared : Nat) (s : ShortN) (oldChild newChild : ChildE)
    (bidxPath bidxSnode : Nat) : Option StoreState :=
  if bidxSnode < NBRANCH + 1 ∧ bidxPath < NBRANCH + 1 then
    let bnode := NodeE.branch
      { branchNew with children :=
          ((branchNew.children.set bidxSnode (some oldChild)).set
            bidxPath (some newChild)) }
    if 0 < shared then
      match addDirty st3 (some bnode) with
      | (st4, bD) =>
          putDirty st4 curD (some (NodeE.short
            ⟨[], s.path.take shared, ChildE.ptr (NodePtrE.dirty bD)⟩))
    else
      putDirty st3 curD (some bnode)
  else none

/-- The split tail of the short-node case of `Merkle::insert`: build the
new branch whose two slots are the old short's diverging side
(`oldChild`) and the new value's side, then install it, wrapped in a
prefix short when the shared prefix is non-empty. -/
def insertSplit (keccak : List Nat → List Nat) (path : List Nat) (valD : Nat)
    (st2 : StoreState) (curD i shared : Nat) (s : ShortN) (oldChild : ChildE) :
    Option StoreState :=
  match (if i + shared + 1 < path.length then
           some (addDirty st2 (some (NodeE.short
             ⟨[], path.drop (i + shared + 1), ChildE.ptr (NodePtrE.dirty valD)⟩)))
         else none) with
  | some (st3, d3) =>
      insertSplitEnd path st3 curD shared s oldChild
        (ChildE.ptr (NodePtrE.dirty d3)) (path.getD (i + shared) 0)
        (s.path.getD shared 0)
  | none =>
      if path.getD (i + shared) 0 = NBRANCH then
        insertSplitEnd path st2 curD shared s oldChild
          (ChildE.ptr (NodePtrE.dirty valD)) (path.getD (i + shared) 0)
          (s.path.getD shared 0)
      else none

/-- The `Merkle::insert` walk, with explicit fuel (the Rust loop would
diverge on a malformed empty-path short; `path.length + 1` fuel suffices
for well-formed tries).  `none` models Rust panics (arena index out of
range, `assert!` failures, `unreachable!()`, COW of a missing node).
Case for case as in the source: an empty slot receives a short to the
value; a branch either receives the value at the terminator slot or
descends (dirtifying the child); a short either receives the value,
descends through a full prefix match, or is split around a new branch. -/
def insertLoop (keccak : List Nat → List Nat) (path : List Nat) (valD : Nat) :
    Nat → StoreState → Nat → Nat → Option StoreState
  | 0, _, _, _ => none
  | fuel + 1, st, curD, i =>
    if i < path.length then
      match takeDirty st curD with
      | none => none
      | some (cur?, st1) =>
          match cur? with
          | none =>
              if (path.drop i).length > 0 then
                putDirty st1 curD (some (NodeE.short
                  ⟨[], path.drop i, ChildE.ptr (NodePtrE.dirty valD)⟩))
              else none
          | some (NodeE.value _) => none
          | some (NodeE.branch b) =>
              if i + 1 = path.length then
                if path.getD i 0 = NBRANCH then
                  putDirty st1 curD (some (NodeE.branch
                    { b with children := (b.children.set (path.getD i 0)
                        (some (ChildE.ptr (NodePtrE.dirty valD)))) }))
                else none
              else
                match b.children[path.getD i 0]? with
                | none => none
                | some slot =>
                    match (match slot with
                           | some (ChildE.ptr (NodePtrE.dirty d)) => some (st1, d)
                           | some (ChildE.ptr (NodePtrE.clean c)) => cowClean keccak st1 c
                           | some (ChildE.hash c _) => cowClean keccak st1 c
                           | none => some (addDirty st1 none)) with
                    | none => none
                    | some (st2, childD) =>
                        match putDirty st2 curD (some (NodeE.branch
                            { b with children := (b.children.set (path.getD i 0)
                                (some (ChildE.ptr (NodePtrE.dirty childD)))) })) with
                        | none => none
                        | some st3 => insertLoop keccak path valD fuel st3 childD (i + 1)
          | some (NodeE.short s) =>
              if i + commonPrefixLen s.path (path.drop i) = path.length ∧
                  commonPrefixLen s.path (path.drop i) = s.path.length then
                putDirty st1 curD (some (NodeE.short
                  { s with child := ChildE.ptr (NodePtrE.dirty valD) }))
              else if i + commonPrefixLen s.path (path.drop i) < path.length ∧
                  commonPrefixLen s.path (path.drop i) = s.path.length then
                if i + commonPrefixLen s.path (path.drop i) + 1 < path.length then
                  match (match s.child with
                         | ChildE.ptr (NodePtrE.dirty d) => some (st1, d)
                         | ChildE.ptr (NodePtrE.clean c) => cowClean keccak st1 c
                         | ChildE.hash c _ => cowClean keccak st1 c) with
                  | none => none
                  | some (st2, childD) =>
                      match putDirty st2 curD (some (NodeE.short
                          { s with child := ChildE.ptr (NodePtrE.dirty childD) })) with
                      | none => none
                      | some st3 =>
                          insertLoop keccak path valD fuel st3 childD
                            (i + commonPrefixLen s.path (path.drop i))
                else none
              else
                if i + commonPrefixLen s.path (path.drop i) < path.length ∧
                    commonPrefixLen s.path (path.drop i) < s.path.length then
                  match (if commonPrefixLen s.path (path.drop i) + 1 < s.path.length then
                           some (addDirty st1 (some (NodeE.short
                             { s with path :=
                                 (s.path.drop (commonPrefixLen s.path (path.drop i) + 1)) })))
                         else none) with
                  | some (st2, d2) =>
                      insertSplit keccak path valD st2 curD i
                        (commonPrefixLen s.path (path.drop i)) s
                        (ChildE.ptr (NodePtrE.dirty d2))
                  | none =>
                      insertSplit keccak path valD st1 curD i
                        (commonPrefixLen s.path (path.drop i)) s s.child
                else none
    else some st

/-- `Merkle::insert`: materialize a dirty root (a fresh empty slot for an
empty trie, else a COW of the clean root), add the value node to the
arena, and run the walk with canonical fuel `path.length + 1`. -/
def minsert (keccak : List Nat → List Nat) (m : MerkleState) (key : List Nat)
    (v : ValueN) : Option MerkleState :=
  match (match m.root_dptr with
         | some d => some (m.store, d)
         | none =>
             if m.root_cptr = 0 then some (addDirty m.store none)
             else cowClean keccak m.store m.root_cptr) with
  | none => none
  | some (st0, rootD) =>
      match insertLoop keccak (toPath key) (addDirty st0 (some (NodeE.value v))).2
          ((toPath key).length + 1)
          (addDirty st0 (some (NodeE.value v))).1 rootD 0 with
      | none => none
      | some st2 => some ⟨st2, m.root_cptr, some rootD⟩

/-- A sequence of uncommitted `insert` calls. -/
def applyInserts (keccak : List Nat → List Nat) (m : MerkleState) :
    List (List Nat × ValueN) → Option MerkleState
  | [] => some m
  | (k, v) :: rest =>
      match minsert keccak m k v with
      | none => none
      | some m' => applyInserts keccak m' rest

/-- The persistent side of the store — clean map, backend bytes, AHA —
is unchanged between two states. -/
def samePersist (st st' : StoreState) : Prop :=
  st'.clean = st.clean ∧ st'.backendData = st.backendData ∧ st'.aha = st.aha

theorem samePersist_trans {a b c : StoreState} :
    samePersist a b → samePersist b c → samePersist a c := by
  intro h1 h2
  exact ⟨h2.1.trans h1.1, h2.2.1.trans h1.2.1, h2.2.2.trans h1.2.2⟩

theorem samePersist_addDirty (st : StoreState) (n : Option NodeE) :
    samePersist st (addDirty st n).1 := ⟨rfl, rfl, rfl⟩

theorem samePersist_putDirty {st st' : StoreState} {d : Nat} {n : Option NodeE}
    (h : putDirty st d n = some st') : samePersist st st' := by
  rw [putDirty] at h
  split at h
  · injection h with h
    subst h
    exact ⟨rfl, rfl, rfl⟩
  · exact Option.noConfusion h

theorem samePersist_takeDirty {st st' : StoreState} {d : Nat} {x : Option NodeE}
    (h : takeDirty st d = some (x, st')) : samePersist st st' := by
  rw [takeDirty] at h
  cases hg : st.dirty[d]? with
  | none =>
      rw [hg] at h
      exact Option.noConfusion h
  | some y =>
      rw [hg] at h
      injection h with h
      injection h with h1 h2
      subst h2
      exact ⟨rfl, rfl, rfl⟩

theorem samePersist_cowClean {keccak : List Nat → List Nat}
    {st : StoreState} {c : Nat} {res : StoreState × Nat}
    (h : cowClean keccak st c = some res) : samePersist st res.1 := by
  simp only [cowClean] at h
  cases h1 : alookup st.clean c with
  | none =>
      simp only [h1] at h
      exact Option.noConfusion h
  | some n =>
      simp only [h1] at h
      cases h2 : loadAha keccak st.aha n with
      | none =>
          simp only [h2] at h
          exact Option.noConfusion h
      | some n' =>
          simp only [h2] at h
          injection h with h
          subst h
          exact ⟨rfl, rfl, rfl⟩

theorem samePersist_acquire4 {keccak : List Nat → List Nat}
    {st1 : StoreState} {res : StoreState × Nat} (slot : Option ChildE)
    (h : (match slot with
          | some (ChildE.ptr (NodePtrE.dirty d)) => some (st1, d)
          | some (ChildE.ptr (NodePtrE.clean c)) => cowClean keccak st1 c
          | some (ChildE.hash c _) => cowClean keccak st1 c
          | none => some (addDirty st1 none)) = some res) :
    samePersist st1 res.1 := by
  match slot with
  | none =>
      injection h with h
      rw [← h]
      exact samePersist_addDirty st1 none
  | some (ChildE.ptr (NodePtrE.dirty d)) =>
      injection h with h
      rw [← h]
      exact ⟨rfl, rfl, rfl⟩
  | some (ChildE.ptr (NodePtrE.clean c)) => exact samePersist_cowClean h
  | some (ChildE.hash c hh) => exact samePersist_cowClean h

theorem samePersist_acquire3 {keccak : List Nat → List Nat}
    {st1 : StoreState} {res : StoreState × Nat} (child : ChildE)
    (h : (match child with
          | ChildE.ptr (NodePtrE.dirty d) => some (st1, d)
          | ChildE.ptr (NodePtrE.clean c) => cowClean keccak st1 c
          | ChildE.hash c _ => cowClean keccak st1 c) = some res) :
    samePersist st1 res.1 := by
  match child with
  | ChildE.ptr (NodePtrE.dirty d) =>
      injection h with h
      rw [← h]
      exact ⟨rfl, rfl, rfl⟩
  | ChildE.ptr (NodePtrE.clean c) => exact samePersist_cowClean h
  | ChildE.hash c hh => exact samePersist_cowClean h

theorem samePersist_insertSplitEnd {path : List Nat} {st3 st' : StoreState}
    {curD shared : Nat} {s : ShortN} {oldChild newChild : ChildE}
    {bidxPath bidxSnode : Nat}
    (h : insertSplitEnd path st3 curD shared s oldChild newChild bidxPath
        bidxSnode = some st') :
    samePersist st3 st' := by
  rw [insertSplitEnd] at h
  split at h
  · split at h
    · exact samePersist_trans (samePersist_addDirty st3 _) (samePersist_putDirty h)
    · exact samePersist_putDirty h
  · exact Option.noConfusion h

theorem samePersist_insertSplit {keccak : List Nat → List Nat}
    {path : List Nat} {valD : Nat} {st2 st' : StoreState}
    {curD i shared : Nat} {s : ShortN} {oldChild : ChildE}
    (h : insertSplit keccak path valD st2 curD i shared s oldChild = some st') :
    samePersist st2 st' := by
  rw [insertSplit] at h
  split at h
  · next st3 d3 heq =>
      split at heq
      · injection heq with heq
        have h1 : samePersist st2 st3 := by
          rw [show st3 = (addDirty st2 (some (NodeE.short
            ⟨[], path.drop (i + shared + 1), ChildE.ptr (NodePtrE.dirty valD)⟩))).1
            from by rw [heq]]
          exact samePersist_addDirty st2 _
        exact samePersist_trans h1 (samePersist_insertSplitEnd h)
      · exact Option.noConfusion heq
  · split at h
    · exact samePersist_insertSplitEnd h
    · exact Option.noConfusion h

theorem insertLoop_samePersist (keccak : List Nat → List Nat)
    (path : List Nat) (valD : Nat) :
    ∀ fuel st curD i st',
      insertLoop keccak path valD fuel st curD i = some st' →
      samePersist st st' := by
  intro fuel
  induction fuel with
  | zero =>
      intro st curD i st' h
      exact absurd h (by simp [insertLoop])
  | succ fuel ih =>
      intro st curD i st' h
      rw [insertLoop] at h
      split at h
      case isFalse =>
        injection h with h
        subst h
        exact ⟨rfl, rfl, rfl⟩
      case isTrue =>
        cases htk : takeDirty st curD with
        | none =>
            rw [htk] at h
            exact Option.noConfusion h
        | some pr =>
            obtain ⟨cur?, st1⟩ := pr
            rw [htk] at h
            have h0 : samePersist st st1 := samePersist_takeDirty htk
            refine samePersist_trans h0 ?_
            cases cur? with
            | none =>
                simp only at h
                split at h
                · exact samePersist_putDirty h
                · exact Option.noConfusion h
            | some cur =>
                cases cur with
                | value v => exact absurd h (by simp)
                | branch b =>
                    simp only at h
                    split at h
                    · -- terminator attach
                      split at h
                      · exact samePersist_putDirty h
                      · exact Option.noConfusion h
                    · -- descend
                      cases hch : b.children[path.getD i 0]? with
                      | none =>
                          simp only [hch] at h
                          exact Option.noConfusion h
                      | some slot =>
                          simp only [hch] at h
                          cases hacq : (match slot with
                              | some (ChildE.ptr (NodePtrE.dirty d)) => some (st1, d)
                              | some (ChildE.ptr (NodePtrE.clean c)) =>
                                  cowClean keccak st1 c
                              | some (ChildE.hash c _) => cowClean keccak st1 c
                              | none => some (addDirty st1 none)) with
                          | none =>
                              simp only [hacq] at h
                              exact Option.noConfusion h
                          | some pr2 =>
                              obtain ⟨st2, childD⟩ := pr2
                              simp only [hacq] at h
                              have h1 : samePersist st1 st2 :=
                                samePersist_acquire4 slot hacq
                              refine samePersist_trans h1 ?_
                              cases hput : putDirty st2 curD (some (NodeE.branch
                                  { b with children := (b.children.set (path.getD i 0)
                                      (some (ChildE.ptr (NodePtrE.dirty childD)))) })) with
                              | none =>
                                  simp only [hput] at h
                                  exact Option.noConfusion h
                              | some st3 =>
                                  simp only [hput] at h
                                  exact samePersist_trans
                                    (samePersist_putDirty hput) (ih st3 childD (i + 1) st' h)
                | short s =>
                    simp only at h
                    split at h
                    · exact samePersist_putDirty h
                    · split at h
                      · split at h
                        · cases hacq : (match s.child with
                              | ChildE.ptr (NodePtrE.dirty d) => some (st1, d)
                              | ChildE.ptr (NodePtrE.clean c) => cowClean keccak st1 c
                              | ChildE.hash c _ => cowClean keccak st1 c) with
                          | none =>
                              simp only [hacq] at h
                              exact Option.noConfusion h
                          | some pr2 =>
                              obtain ⟨st2, childD⟩ := pr2
                              simp only [hacq] at h
                              have h1 : samePersist st1 st2 :=
                                samePersist_acquire3 s.child hacq
                              refine samePersist_trans h1 ?_
                              cases hput : putDirty st2 curD (some (NodeE.short
                                  { s with child := ChildE.ptr (NodePtrE.dirty childD) })) with
                              | none =>
                                  simp only [hput] at h
                                  exact Option.noConfusion h
                              | some st3 =>
                                  simp only [hput] at h
                                  exact samePersist_trans
                                    (samePersist_putDirty hput)
                                    (ih st3 childD
                                      (i + commonPrefixLen s.path (path.drop i)) st' h)
                        · exact Option.noConfusion h
                      · split at h
                        · split at h
                          · next st2 d2 heq =>
                              split at heq
                              · injection heq with heq
                                have h1 : samePersist st1 st2 := by
                                  rw [show st2 = (addDirty st1 (some (NodeE.short
                                    { s with path :=
                                        (s.path.drop (commonPrefixLen s.path (path.drop i) + 1)) }))).1
                                    from by rw [heq]]
                                  exact samePersist_addDirty st1 _
                                exact samePersist_trans h1 (samePersist_insertSplit h)
                              · exact Option.noConfusion heq
                          · exact samePersist_insertSplit h
                        · exact Option.noConfusion h

theorem samePersist_acquireRoot {keccak : List Nat → List Nat}
    {m : MerkleState} {res : StoreState × Nat}
    (h : (match m.root_dptr with
          | some d => some (m.store, d)
          | none =>
              if m.root_cptr = 0 then some (addDirty m.store none)
              else cowClean keccak m.store m.root_cptr) = some res) :
    samePersist m.store res.1 := by
  cases hd : m.root_dptr with
  | some d =>
      rw [hd] at h
      injection h with h
      rw [← h]
      exact ⟨rfl, rfl, rfl⟩
  | none =>
      rw [hd] at h
      by_cases h0 : m.root_cptr = 0
      · rw [if_pos h0] at h
        injection h with h
        rw [← h]
        exact samePersist_addDirty m.store none
      · rw [if_neg h0] at h
        exact samePersist_cowClean h

theorem minsert_persist {keccak : List Nat → List Nat} {m m' : MerkleState}
    {key : List Nat} {v : ValueN} (h : minsert keccak m key v = some m') :
    m'.store.clean = m.store.clean ∧ m'.root_cptr = m.root_cptr := by
  rw [minsert] at h
  cases hr : (match m.root_dptr with
              | some d => some (m.store, d)
              | none =>
                  if m.root_cptr = 0 then some (addDirty m.store none)
                  else cowClean keccak m.store m.root_cptr) with
  | none =>
      simp only [hr] at h
      exact Option.noConfusion h
  | some pr =>
      obtain ⟨st0, rootD⟩ := pr
      simp only [hr] at h
      have h0 : samePersist m.store st0 := samePersist_acquireRoot hr
      cases hil : insertLoop keccak (toPath key)
          (addDirty st0 (some (NodeE.value v))).2 ((toPath key).length + 1)
          (addDirty st0 (some (NodeE.value v))).1 rootD 0 with
      | none =>
          simp only [hil] at h
          exact Option.noConfusion h
      | some st2 =>
          simp only [hil] at h
          injection h with h
          have h1 : samePersist m.store st2 :=
            samePersist_trans h0 (samePersist_trans
              (samePersist_addDirty st0 (some (NodeE.value v)))
              (insertLoop_samePersist keccak (toPath key) _ _ _ rootD 0 st2 hil))
          rw [← h]
          exact ⟨h1.1, rfl⟩

theorem applyInserts_persist {keccak : List Nat → List Nat} :
    ∀ (l : List (List Nat × ValueN)) (m m' : MerkleState),
      applyInserts keccak m l = some m' →
      m'.store.clean = m.store.clean ∧ m'.root_cptr = m.root_cptr := by
  intro l
  induction l with
  | nil =>
      intro m m' h
      injection h with h
      rw [← h]
      exact ⟨rfl, rfl⟩
  | cons kv rest ih =>
      intro m m' h
      obtain ⟨k, v⟩ := kv
      rw [applyInserts] at h
      cases hm : minsert keccak m k v with
      | none =>
          simp only [hm] at h
          exact Option.noConfusion h
      | some m1 =>
          simp only [hm] at h
          obtain ⟨hc1, hr1⟩ := minsert_persist hm
          obtain ⟨hc2, hr2⟩ := ih m1 m' h
          exact ⟨hc2.trans hc1, hr2.trans hr1⟩

/-- C7: for every sequence of `insert` calls performed after the last
commit, `hash()` returns the same digest before and after: `insert` only
touches the dirty arena and the dirty root, while `hash()` reads only the
committed root pointer and the clean store — never the dirty root. -/
theorem claim_C7_uncommitted_inserts_hash (keccak : List Nat → List Nat)
    (m : MerkleState) (l : List (List Nat × ValueN)) (m' : MerkleState)
    (h : applyInserts keccak m l = some m') :
    mhash keccak m' = mhash keccak m := by
  obtain ⟨hc, hr⟩ := applyInserts_persist l m m' h
  rw [mhash, mhash, hc, hr]

/-- The state after inserting key `[1]` with value `[2]` into the empty
trie: a dirty short at arena slot 0 pointing at the dirty value slot 1. -/
def c7m1 : MerkleState :=
  ⟨⟨[some (NodeE.short ⟨[], [0, 1, 16], ChildE.ptr (NodePtrE.dirty 1)⟩),
     some (NodeE.value ⟨[2], []⟩)], [], [], none⟩, 0, some 0⟩

/-- Witness for C7: inserting `([1], [2])` into the empty trie leaves
`hash()` (the empty-trie hash) unchanged. -/
theorem claim_C7_witness :
    applyInserts keccak0 emptyMerkle [([1], ⟨[2], []⟩)] = some c7m1 ∧
      mhash keccak0 c7m1 = mhash keccak0 emptyMerkle :=
  ⟨by decide,
    claim_C7_uncommitted_inserts_hash keccak0 emptyMerkle [([1], ⟨[2], []⟩)]
      c7m1 (by decide)⟩

/-! ## Delete and branch collapse — `Merkle::delete_rec`

The dirty arena's `take_dirty`/`put_dirty` discipline transfers sole
ownership of each node along the deletion path, and `cow_clean` pulls
every clean child into the arena before the recursion descends into it;
each dirty index is referenced by at most one parent slot.  The tree
reachable from the deletion root is therefore traversed as an owned tree,
and this model represents it directly as one (`MTree`), with children
owned in place — the arena indirection erased. -/

/-- A trie subtree with children owned in place. -/
inductive MTree where
  | value (v : ValueN)
  | short (path : List Nat) (child : MTree)
  | branch (children : List (Option MTree))

/-- The indices (0..=16) of present child slots, as counted by the
collapse step of `delete_rec`. -/
def presentIndices (cs : List (Option MTree)) : List Nat :=
  (List.range (NBRANCH + 1)).filter (fun i => (cs.getD i none).isSome)

/-- `Merkle::delete_rec` with explicit fuel (`path.length + 1` suffices
for well-formed tries; exhausted fuel acts as "not found", leaving the
tree unchanged).  Returns the replacement subtree (`none` = this subtree
was removed) and whether a value was deleted.  Mirrors the source: a
`Value` is removed exactly at the end of the path; a `Short` whose path
is fully covered recurses and, if its child survives, merges with a
`Short` child when it is an extension; a `Branch` clears the terminator
slot at the end of the key or recurses into the selected slot, then
collapses by present-slot count (0 = removed, 1 = collapse to a `Short`
whose path starts with the surviving index, merged with a `Short` child
when the survivor is not the value slot). -/
def deleteRec : Nat → MTree → List Nat → Nat → Option MTree × Bool
  | 0, t, _, _ => (some t, false)
  | fuel + 1, t, path, depth =>
    match t with
    | MTree.value v =>
        if depth = path.length then (none, true)
        else (some (MTree.value v), false)
    | MTree.short p c =>
        if commonPrefixLen p (path.drop depth) ≠ p.length then
          (some (MTree.short p c), false)
        else
          match deleteRec fuel c path (depth + commonPrefixLen p (path.drop depth)) with
          | (_, false) => (some (MTree.short p c), false)
          | (none, true) => (none, true)
          | (some nc, true) =>
              if p.getLast? ≠ some 16 then
                match nc with
                | MTree.short cp cc => (some (MTree.short (p ++ cp) cc), true)
                | _ => (some (MTree.short p nc), true)
              else (some (MTree.short p nc), true)
    | MTree.branch cs =>
        if path.length ≤ depth then (some (MTree.branch cs), false)
        else
          match cs[path.getD depth 0]? with
          | none => (some (MTree.branch cs), false)
          | some none => (some (MTree.branch cs), false)
          | some (some child) =>
              match (if depth + 1 = path.length ∧ path.getD depth 0 = NBRANCH then
                       ((none : Option MTree), true)
                     else deleteRec fuel child path (depth + 1)) with
              | (_, false) => (some (MTree.branch cs), false)
              | (newChild?, true) =>
                  match presentIndices (cs.set (path.getD depth 0) newChild?) with
                  | [] => (none, true)
                  | [only] =>
                      match (cs.set (path.getD depth 0) newChild?).getD only none with
                      | none =>
                          (some (MTree.branch (cs.set (path.getD depth 0) newChild?)), true)
                      | some onlyChild =>
                          if only ≠ NBRANCH then
                            match onlyChild with
                            | MTree.short cp cc =>
                                (some (MTree.short (only :: cp) cc), true)
                            | _ => (some (MTree.short [only] onlyChild), true)
                          else (some (MTree.short [only] onlyChild), true)
                  | _ => (some (MTree.branch (cs.set (path.getD depth 0) newChild?)), true)

/-- The branch-collapse invariant: every branch in the tree has the full
17 child slots, of which at least 2 are present. -/
inductive Inv : MTree → Prop where
  | value (v : ValueN) : Inv (MTree.value v)
  | short (p : List Nat) (c : MTree) : Inv c → Inv (MTree.short p c)
  | branch (cs : List (Option MTree)) :
      cs.length = NBRANCH + 1 →
      2 ≤ (presentIndices cs).length →
      (∀ t, some t ∈ cs → Inv t) →
      Inv (MTree.branch cs)

theorem inv_short_child {p : List Nat} {c : MTree} (h : Inv (MTree.short p c)) :
    Inv c := by
  cases h
  assumption

theorem mem_presentIndices {cs : List (Option MTree)} {i : Nat}
    (h : i ∈ presentIndices cs) : (cs.getD i none).isSome = true :=
  (List.mem_filter.mp h).2

theorem inv_of_getD {cs : List (Option MTree)} {i : Nat} {t : MTree}
    (hmem : ∀ u, some u ∈ cs → Inv u) (h : cs.getD i none = some t) : Inv t := by
  rw [List.getD_eq_getElem?_getD] at h
  cases hg : cs[i]? with
  | none =>
      rw [hg] at h
      exact Option.noConfusion h
  | some x =>
      rw [hg] at h
      simp only [Option.getD_some] at h
      subst h
      exact hmem t (List.getElem?_mem hg)

/-- C6: after any delete, the tree reachable from the (dirty or
committed) root contains no branch node with fewer than 2 present child
slots: a branch left with 0 entries is removed, and a branch left with
exactly 1 entry is collapsed into a short whose path starts with the
surviving slot's index (merged with a child short when possible).
Formally: if the tree satisfies the branch-collapse invariant before,
every tree `delete_rec` returns satisfies it afterwards. -/
theorem claim_C6_delete_branch_collapse :
    ∀ (fuel : Nat) (t : MTree) (path : List Nat) (depth : Nat)
      (res : Option MTree) (removed : Bool),
      Inv t → deleteRec fuel t path depth = (res, removed) →
      ∀ t', res = some t' → Inv t' := by
  intro fuel
  induction fuel with
  | zero =>
      intro t path depth res removed hinv heq t' hres
      simp only [deleteRec] at heq
      injection heq with e1 e2
      rw [← e1] at hres
      injection hres with hres
      exact hres ▸ hinv
  | succ fuel ih =>
      intro t path depth res removed hinv heq t' hres
      cases t with
      | value v =>
          simp only [deleteRec] at heq
          by_cases hdep : depth = path.length
          · rw [if_pos hdep] at heq
            injection heq with e1 e2
            rw [← e1] at hres
            exact Option.noConfusion hres
          · rw [if_neg hdep] at heq
            injection heq with e1 e2
            rw [← e1] at hres
            injection hres with hres
            exact hres ▸ hinv
      | short p c =>
          simp only [deleteRec] at heq
          by_cases hm : commonPrefixLen p (path.drop depth) ≠ p.length
          · rw [if_pos hm] at heq
            injection heq with e1 e2
            rw [← e1] at hres
            injection hres with hres
            exact hres ▸ hinv
          · rw [if_neg hm] at heq
            rcases hrec : deleteRec fuel c path
                (depth + commonPrefixLen p (path.drop depth)) with ⟨nc?, rem⟩
            cases rem with
            | false =>
                cases nc? with
                | none =>
                    simp only [hrec] at heq
                    injection heq with e1 e2
                    rw [← e1] at hres
                    injection hres with hres
                    exact hres ▸ hinv
                | some nc =>
                    simp only [hrec] at heq
                    injection heq with e1 e2
                    rw [← e1] at hres
                    injection hres with hres
                    exact hres ▸ hinv
            | true =>
                cases nc? with
                | none =>
                    simp only [hrec] at heq
                    injection heq with e1 e2
                    rw [← e1] at hres
                    exact Option.noConfusion hres
                | some nc =>
                    simp only [hrec] at heq
                    have hnc : Inv nc :=
                      ih c path (depth + commonPrefixLen p (path.drop depth))
                        (some nc) true (inv_short_child hinv) hrec nc rfl
                    by_cases hterm : p.getLast? ≠ some 16
                    · rw [if_pos hterm] at heq
                      cases nc with
                      | value v2 =>
                          injection heq with e1 e2
                          rw [← e1] at hres
                          injection hres with hres
                          exact hres ▸ Inv.short _ _ hnc
                      | branch cs2 =>
                          injection heq with e1 e2
                          rw [← e1] at hres
                          injection hres with hres
                          exact hres ▸ Inv.short _ _ hnc
                      | short cp cc =>
                          injection heq with e1 e2
                          rw [← e1] at hres
                          injection hres with hres
                          exact hres ▸ Inv.short _ _ (inv_short_child hnc)
                    · rw [if_neg hterm] at heq
                      injection heq with e1 e2
                      rw [← e1] at hres
                      injection hres with hres
                      exact hres ▸ Inv.short _ _ hnc
      | branch cs =>
          obtain ⟨hlen, hcnt, hmem⟩ :
              cs.length = NBRANCH + 1 ∧ 2 ≤ (presentIndices cs).length ∧
                (∀ u, some u ∈ cs → Inv u) := by
            cases hinv
            exact ⟨by assumption, by assumption, by assumption⟩
          simp only [deleteRec] at heq
          by_cases hd : path.length ≤ depth
          · rw [if_pos hd] at heq
            injection heq with e1 e2
            rw [← e1] at hres
            injection hres with hres
            exact hres ▸ hinv
          · rw [if_neg hd] at heq
            cases hch : cs[path.getD depth 0]? with
            | none =>
                simp only [hch] at heq
                injection heq with e1 e2
                rw [← e1] at hres
                injection hres with hres
                exact hres ▸ hinv
            | some slot =>
                cases slot with
                | none =>
                    simp only [hch] at heq
                    injection heq with e1 e2
                    rw [← e1] at hres
                    injection hres with hres
                    exact hres ▸ hinv
                | some child =>
                    simp only [hch] at heq
                    have hchild : Inv child :=
                      hmem child (List.getElem?_mem hch)
                    rcases hrec2 : (if depth + 1 = path.length ∧
                          path.getD depth 0 = NBRANCH then
                        ((none : Option MTree), true)
                      else deleteRec fuel child path (depth + 1)) with ⟨nc?, rem⟩
                    have hnc : ∀ t'', nc? = some t'' → Inv t'' := by
                      intro t'' ht''
                      by_cases hsp : depth + 1 = path.length ∧
                          path.getD depth 0 = NBRANCH
                      · rw [if_pos hsp] at hrec2
                        injection hrec2 with f1 f2
                        rw [← f1] at ht''
                        exact Option.noConfusion ht''
                      · rw [if_neg hsp] at hrec2
                        exact ih child path (depth + 1) nc? rem hchild hrec2 t'' ht''
                    cases rem with
                    | false =>
                        cases nc? with
                        | none =>
                            simp only [hrec2] at heq
                            injection heq with e1 e2
                            rw [← e1] at hres
                            injection hres with hres
                            exact hres ▸ hinv
                        | some nc =>
                            simp only [hrec2] at heq
                            injection heq with e1 e2
                            rw [← e1] at hres
                            injection hres with hres
                            exact hres ▸ hinv
                    | true =>
                        simp only [hrec2] at heq
                        have hmem' : ∀ u,
                            some u ∈ cs.set (path.getD depth 0) nc? → Inv u := by
                          intro u hu
                          rcases List.mem_or_eq_of_mem_set hu with hin | heqq
                          · exact hmem u hin
                          · exact hnc u heqq.symm
                        have hlen' : (cs.set (path.getD depth 0) nc?).length =
                            NBRANCH + 1 := by
                          rw [List.length_set]
                          exact hlen
                        rcases hpi : presentIndices
                            (cs.set (path.getD depth 0) nc?) with _ | ⟨only, rest⟩
                        · simp only [hpi] at heq
                          injection heq with e1 e2
                          rw [← e1] at hres
                          exact Option.noConfusion hres
                        · rcases rest with _ | ⟨r2, rest2⟩
                          · -- exactly one present slot: collapse to a short
                            have honly_mem : only ∈ presentIndices
                                (cs.set (path.getD depth 0) nc?) := by
                              rw [hpi]
                              exact List.mem_singleton.mpr rfl
                            cases hgd : (cs.set (path.getD depth 0) nc?).getD
                                only none with
                            | none =>
                                have := mem_presentIndices honly_mem
                                rw [hgd] at this
                                exact absurd this (by simp)
                            | some onlyChild =>
                                have honly : Inv onlyChild :=
                                  inv_of_getD hmem' hgd
                                simp only [hpi, hgd] at heq
                                by_cases h16 : only ≠ NBRANCH
                                · rw [if_pos h16] at heq
                                  cases onlyChild with
                                  | value v2 =>
                                      injection heq with e1 e2
                                      rw [← e1] at hres
                                      injection hres with hres
                                      exact hres ▸ Inv.short _ _ honly
                                  | branch cs2 =>
                                      injection heq with e1 e2
                                      rw [← e1] at hres
                                      injection hres with hres
                                      exact hres ▸ Inv.short _ _ honly
                                  | short cp cc =>
                                      injection heq with e1 e2
                                      rw [← e1] at hres
                                      injection hres with hres
                                      exact hres ▸ Inv.short _ _ (inv_short_child honly)
                                · rw [if_neg h16] at heq
                                  injection heq with e1 e2
                                  rw [← e1] at hres
                                  injection hres with hres
                                  exact hres ▸ Inv.short _ _ honly
                          · -- at least two present slots: keep the branch
                            simp only [hpi] at heq
                            injection heq with e1 e2
                            rw [← e1] at hres
                            injection hres with hres
                            refine hres ▸ Inv.branch _ hlen' ?_ hmem'
                            rw [hpi]
                            simp

/-- A leaf-like subtree: a short with terminator path over a value. -/
def c6s (n : Nat) : MTree := MTree.short [16] (MTree.value ⟨[n], []⟩)

/-- A 17-slot branch with exactly two present children (slots 0 and 1). -/
def c6t0 : MTree :=
  MTree.branch ([some (c6s 0), some (c6s 1)] ++ List.replicate 15 none)

theorem c6t0_inv : Inv c6t0 := by
  refine Inv.branch _ (by decide) (by decide) ?_
  intro t ht
  simp only [c6t0, c6s, List.mem_append, List.mem_cons, List.mem_replicate,
    List.not_mem_nil, or_false, reduceCtorEq, and_false] at ht
  rcases ht with h | h <;>
    exact (Option.some.inj h) ▸ Inv.short _ _ (Inv.value _)

theorem claim_C6_witness :
    Inv c6t0 ∧
    deleteRec 3 c6t0 [0, 16] 0 =
      (some (MTree.short [1, 16] (MTree.value ⟨[1], []⟩)), true) ∧
    Inv (MTree.short [1, 16] (MTree.value ⟨[1], []⟩)) :=
  ⟨c6t0_inv, rfl,
   claim_C6_delete_branch_collapse 3 c6t0 [0, 16] 0
     (some (MTree.short [1, 16] (MTree.value ⟨[1], []⟩))) true
     c6t0_inv rfl (MTree.short [1, 16] (MTree.value ⟨[1], []⟩)) rfl⟩

end Ficus
